import Mathlib

/-!
Verification of the copy-on-write B+tree index (`btree/src/btreeindex/mod.rs`).

The tree facade (`BTree::insert`, `lookup`, `search`, `delete`, `insert_many`,
`checkpoint`, the range iterator, …) is embedded as functions on a functional
tree `BNode K V`.  A node occupies one page in the real store; copy-on-write
page identity is abstracted away, the structural content of every node is kept.
The node-layout module (`node.rs`: leaf/internal insert, split, rebalance
primitives) and the version-management module are not part of the provided
sources; those primitives are modelled from the specification (sections 4.4,
4.6 and 5) and each such definition is marked `Modelled from the spec:`.
-/

namespace BTreeIndex

/-- Error taxonomy of the store (`BTreeStoreError` in the source crate). -/
inductive BTreeStoreError where
  | DuplicatedKey
  | KeyNotFound
  | PageOutOfBounds
  | CorruptedPage
  | IoError
  | InvariantViolation
deriving DecidableEq, Repr

/-- A tree node: one page of the store.  A leaf holds the parallel
`keys()`/`values()` arrays (zipped here), an internal node holds the
`keys()` array and the `children()` page array (children embedded
structurally in place of their `PageId`s). -/
inductive BNode (K V : Type) where
  | leaf (kvs : List (K × V))
  | internal (keys : List K) (children : List (BNode K V))

namespace BNode

variable {K V : Type}

/-- Strong induction over the nested tree type. -/
theorem strongInduction {P : BNode K V → Prop}
    (hleaf : ∀ kvs, P (BNode.leaf kvs))
    (hint : ∀ ks cs, (∀ c ∈ cs, P c) → P (BNode.internal ks cs)) :
    ∀ t, P t := by
  intro t
  induction t using BNode.rec (motive_2 := fun cs => ∀ c ∈ cs, P c) with
  | leaf kvs => exact hleaf kvs
  | internal ks cs ih => exact hint ks cs ih
  | nil =>
      rename_i c hc
      exact absurd hc (List.not_mem_nil c)
  | cons c cs hc hcs =>
      rename_i x hx
      rcases List.mem_cons.1 hx with h | h
      · exact h ▸ hc
      · exact hcs x h

end BNode

variable {K V : Type}

theorem sizeOf_lt_of_getElem {cs : List (BNode K V)} {i : Nat} {c : BNode K V}
    (h : cs[i]? = some c) (ks : List K) : sizeOf c < sizeOf (BNode.internal ks cs) := by
  have hm : c ∈ cs := List.getElem?_mem h
  have h1 := List.sizeOf_lt_of_mem hm
  have h2 : sizeOf (BNode.internal ks cs) = 1 + sizeOf ks + sizeOf cs := by
    simp [BNode.internal.sizeOf_spec]
  omega

theorem sizeOf_lt_of_mem_children {cs : List (BNode K V)} {c : BNode K V}
    (h : c ∈ cs) (ks : List K) : sizeOf c < sizeOf (BNode.internal ks cs) := by
  have h1 := List.sizeOf_lt_of_mem h
  have h2 : sizeOf (BNode.internal ks cs) = 1 + sizeOf ks + sizeOf cs := by
    simp [BNode.internal.sizeOf_spec]
  omega

mutual

/-- All key/value pairs stored in the subtree, in left-to-right leaf order. -/
def entries : BNode K V → List (K × V)
  | .leaf kvs => kvs
  | .internal _ cs => entriesList cs
termination_by t => sizeOf t
decreasing_by all_goals (simp [BNode.internal.sizeOf_spec]; try omega)

/-- Concatenated entries of a list of sibling subtrees. -/
def entriesList : List (BNode K V) → List (K × V)
  | [] => []
  | c :: rest => entries c ++ entriesList rest
termination_by cs => sizeOf cs
decreasing_by all_goals (simp; try omega)

end

/-- Keys stored in the subtree. -/
def treeKeys (t : BNode K V) : List K := (entries t).map Prod.fst

mutual

/-- Crude size measure, used only as iterator fuel. -/
def weight : BNode K V → Nat
  | .leaf kvs => kvs.length + 1
  | .internal _ cs => weightList cs + 1
termination_by t => sizeOf t
decreasing_by all_goals (simp [BNode.internal.sizeOf_spec]; try omega)

/-- Summed weight of a list of sibling subtrees. -/
def weightList : List (BNode K V) → Nat
  | [] => 0
  | c :: rest => weight c + weightList rest
termination_by cs => sizeOf cs
decreasing_by all_goals (simp; try omega)

end

variable [LinearOrder K]

/-- Index of the first key strictly greater than `k` in a key array:
the `upper_pivot` the source computes from `keys().binary_search(key)`
(`Ok(pos) ↦ pos + 1`, `Err(pos) ↦ pos`), which on the strictly
ascending key arrays of the tree is the number of keys `≤ k`. -/
def upperPivot (k : K) : List K → Nat
  | [] => 0
  | x :: xs => if x ≤ k then upperPivot k xs + 1 else 0

/-- Insertion position of `k` in a key array: `binary_search`'s
`Err(pos)`, the number of keys `< k` on a strictly ascending array. -/
def insPos (k : K) : List K → Nat
  | [] => 0
  | x :: xs => if x < k then insPos k xs + 1 else 0

/-- Child index chosen by `BTree::search` at an internal node:
`upper_pivot` filtered by `pos < children.len()`, falling back to the
last child. -/
def childIdx (ks : List K) (csLen : Nat) (k : K) : Nat :=
  if upperPivot k ks < csLen then upperPivot k ks else csLen - 1

/-- Leaf lookup: `keys().binary_search(key)`, on `Ok(pos)` the value at
`pos` of the parallel `values()` array — the entry whose key is `k`. -/
def leafFind (kvs : List (K × V)) (k : K) : Option V :=
  (kvs.find? (fun kv => kv.1 = k)).map (·.2)

/-- Result of `LeafNode::insert`. -/
inductive LeafInsertStatus (K V : Type) where
  | Ok (kvs : List (K × V))
  | DuplicatedKey
  | Split (splitKey : K) (left : List (K × V)) (right : List (K × V))

/-- Modelled from the spec: `node::leaf_node::LeafNode::insert` (the `node`
module is not among the provided sources).  Per spec §4.4: an existing key
yields `DuplicatedKey` with no mutation; otherwise the pair is inserted at its
binary-search position; an overfull node is split, keys `≥ split_key` migrate
to the fresh right sibling and `split_key` equals the first key of the right
sibling.  The left half keeps the original page. -/
def leafInsert (capLeaf : Nat) (k : K) (v : V) (kvs : List (K × V)) : LeafInsertStatus K V :=
  if (kvs.map Prod.fst).contains k then .DuplicatedKey
  else
    let kvs' := kvs.insertIdx (insPos k (kvs.map Prod.fst)) (k, v)
    if kvs'.length ≤ capLeaf then .Ok kvs'
    else
      match kvs'.drop ((kvs'.length + 1) / 2) with
      | [] => .Ok kvs'
      | kv :: rest => .Split kv.1 (kvs'.take ((kvs'.length + 1) / 2)) (kv :: rest)

/-- Result of `InternalNode::insert`. -/
inductive InternalInsertStatus (K V : Type) where
  | Ok (keys : List K) (children : List (BNode K V))
  | Split (splitKey : K) (lks : List K) (lcs : List (BNode K V))
      (rks : List K) (rcs : List (BNode K V))

/-- Modelled from the spec: `node::internal_node::InternalNode::insert`.
Per spec §4.4/§4.8: the promoted separator `sk` of the split child is inserted
at its binary-search position `p` and the new right child at `p + 1`; if the
node overflows, it is split and the middle key is promoted to the parent. -/
def internalInsert (capInt : Nat) (sk : K) (right : BNode K V)
    (ks : List K) (cs : List (BNode K V)) : InternalInsertStatus K V :=
  let p := insPos sk ks
  let ks' := ks.insertIdx p sk
  let cs' := cs.insertIdx (p + 1) right
  if ks'.length ≤ capInt then .Ok ks' cs'
  else
    let m := ks'.length / 2
    match ks'.drop m with
    | [] => .Ok ks' cs'
    | pk :: rks => .Split pk (ks'.take m) (cs'.take (m + 1)) rks (cs'.drop (m + 1))

/-- Outcome of inserting into a subtree: either the rewritten subtree, or a
pending split `(left, split_key, right)` that the parent must absorb
(`left` keeps the original page id, `right` is the freshly allocated node). -/
inductive InsResult (K V : Type) where
  | done (t : BNode K V)
  | split (left : BNode K V) (sk : K) (right : BNode K V)

namespace BTree

mutual

/-- `BTree::insert` + `insert_in_leaf` + `insert_in_internals`: descend to the
leaf along `InsertBacktrack`, insert there, and unwind absorbing splits.  A
pending split that survives past the root is reported as `InsResult.split`. -/
def insNode (capLeaf capInt : Nat) (k : K) (v : V) :
    BNode K V → Except BTreeStoreError (InsResult K V)
  | .leaf kvs =>
      match leafInsert capLeaf k v kvs with
      | .DuplicatedKey => .error .DuplicatedKey
      | .Ok kvs' => .ok (.done (.leaf kvs'))
      | .Split sk l r => .ok (.split (.leaf l) sk (.leaf r))
  | .internal ks cs =>
      match insChild capLeaf capInt k v (childIdx ks cs.length k) cs with
      | .error e => .error e
      | .ok (.done c') =>
          .ok (.done (.internal ks (cs.set (childIdx ks cs.length k) c')))
      | .ok (.split l sk r) =>
          match internalInsert capInt sk r ks (cs.set (childIdx ks cs.length k) l) with
          | .Ok ks' cs' => .ok (.done (.internal ks' cs'))
          | .Split pk lks lcs rks rcs =>
              .ok (.split (.internal lks lcs) pk (.internal rks rcs))
termination_by t => sizeOf t
decreasing_by all_goals (simp [BNode.internal.sizeOf_spec]; try omega)

/-- Recurse into the `i`-th child (`tx.get_page(child_id)` during the
backtrack descent; a missing child is a corrupted page). -/
def insChild (capLeaf capInt : Nat) (k : K) (v : V) :
    Nat → List (BNode K V) → Except BTreeStoreError (InsResult K V)
  | _, [] => .error .CorruptedPage
  | 0, c :: _ => insNode capLeaf capInt k v c
  | i + 1, _ :: rest => insChild capLeaf capInt k v i rest
termination_by i cs => sizeOf cs
decreasing_by all_goals (simp; try omega)

end

/-- `BTree::insert` in full: when the backtrack stack empties while still
splitting, `create_internal_node(left, right, key)` builds a new root with the
promoted key and the two halves as its only children. -/
def insert (capLeaf capInt : Nat) (k : K) (v : V) (t : BNode K V) :
    Except BTreeStoreError (BNode K V) :=
  match insNode capLeaf capInt k v t with
  | .error e => .error e
  | .ok (.done t') => .ok t'
  | .ok (.split l sk r) => .ok (.internal [sk] [l, r])

/-- The loop body of `BTree::insert_many`: insert each pair of the batch in
order inside one write transaction, stopping at the first error. -/
def insertList (capLeaf capInt : Nat) (t : BNode K V) :
    List (K × V) → Except BTreeStoreError (BNode K V)
  | [] => .ok t
  | kv :: rest =>
      match insert capLeaf capInt kv.1 kv.2 t with
      | .error e => .error e
      | .ok t' => insertList capLeaf capInt t' rest

mutual

/-- `BTree::search`: descend from the root picking `children[upper_pivot]`
(clamped to the last child) until a leaf is reached. -/
def search (k : K) : BNode K V → Except BTreeStoreError (List (K × V))
  | .leaf kvs => .ok kvs
  | .internal ks cs => searchChild k (childIdx ks cs.length k) cs
termination_by t => sizeOf t
decreasing_by all_goals (simp [BNode.internal.sizeOf_spec]; try omega)

/-- Follow the `i`-th child during `search`. -/
def searchChild (k : K) : Nat → List (BNode K V) → Except BTreeStoreError (List (K × V))
  | _, [] => .error .CorruptedPage
  | 0, c :: _ => search k c
  | i + 1, _ :: rest => searchChild k i rest
termination_by i cs => sizeOf cs
decreasing_by all_goals (simp; try omega)

end

/-- `BTree::lookup`: `search` to the leaf, then binary-search its keys and
return the value at the found position. -/
def lookup (k : K) (t : BNode K V) : Option V :=
  match search k t with
  | .error _ => none
  | .ok kvs => leafFind kvs k

end BTree

/-- Modelled from the spec: `LeafNode::delete` (spec §4.4).  Removing an
absent key is not an error (see the comment in `delete_async`: "delete will
return Ok if the key is not in the given leaf"); whether the node is left
underfull is judged by the caller from the remaining length. -/
def leafDelete (kvs : List (K × V)) (k : K) : List (K × V) :=
  kvs.eraseP (fun kv => kv.1 == k)

/-- `NeedsRebalance`: the node dropped below its minimum occupancy.
Modelled from the spec: half-full thresholds (spec I3); a leaf holds at least
`⌈capacity/2⌉` entries, an internal node at least `⌊capacity/2⌋` keys — the
only thresholds compatible with the split and merge arithmetic of §4.4. -/
def isUnderfull (minLeaf minInt : Nat) : BNode K V → Bool
  | .leaf kvs => kvs.length < minLeaf
  | .internal ks _ => ks.length < minInt

/-- A sibling can lend an entry iff it is strictly above its minimum. -/
def canLend (minLeaf minInt : Nat) : BNode K V → Bool
  | .leaf kvs => minLeaf < kvs.length
  | .internal ks _ => minInt < ks.length

/-- Modelled from the spec: `RebalanceResult::TakeFromLeft` (§4.4) followed by
`take_key_from_left`: the left sibling's last entry rotates through the parent
into the front of child `i`; the parent separator `keys[i-1]` is refreshed. -/
def borrowFromLeft (ks : List K) (cs : List (BNode K V)) (i : Nat) (l c : BNode K V) :
    Except BTreeStoreError (List K × List (BNode K V)) :=
  match l, c with
  | .leaf lkvs, .leaf ckvs =>
      match lkvs.getLast? with
      | none => .error .InvariantViolation
      | some kv => .ok (ks.set (i - 1) kv.1,
          (cs.set (i - 1) (.leaf lkvs.dropLast)).set i (.leaf (kv :: ckvs)))
  | .internal lks lcs, .internal cks ccs =>
      match ks[i - 1]?, lks.getLast?, lcs.getLast? with
      | some sep, some lk, some lc =>
          .ok (ks.set (i - 1) lk,
            (cs.set (i - 1) (.internal lks.dropLast lcs.dropLast)).set i
              (.internal (sep :: cks) (lc :: ccs)))
      | _, _, _ => .error .InvariantViolation
  | _, _ => .error .CorruptedPage

/-- Modelled from the spec: `RebalanceResult::TakeFromRight` (§4.4) followed by
`take_key_from_right`: the right sibling's first entry rotates into the back of
child `i`; the parent separator `keys[i]` is refreshed (for leaves it becomes
the right sibling's new first key, so the parent keeps routing `≥ key` right). -/
def borrowFromRight (ks : List K) (cs : List (BNode K V)) (i : Nat) (c r : BNode K V) :
    Except BTreeStoreError (List K × List (BNode K V)) :=
  match c, r with
  | .leaf ckvs, .leaf rkvs =>
      match rkvs with
      | kv :: kv2 :: rrest =>
          .ok (ks.set i kv2.1,
            (cs.set i (.leaf (ckvs ++ [kv]))).set (i + 1) (.leaf (kv2 :: rrest)))
      | _ => .error .InvariantViolation
  | .internal cks ccs, .internal rks rcs =>
      match ks[i]?, rks, rcs with
      | some sep, rk :: rktail, rc :: rctail =>
          .ok (ks.set i rk,
            (cs.set i (.internal (cks ++ [sep]) (ccs ++ [rc]))).set (i + 1)
              (.internal rktail rctail))
      | _, _, _ => .error .InvariantViolation
  | _, _ => .error .CorruptedPage

/-- Modelled from the spec: `RebalanceResult::MergeIntoLeft` (§4.4): child `i`
is concatenated into its left sibling (pulling the separator down for internal
nodes); the caller's `delete_key_children(anchor)` removes `keys[i-1]` and
`children[i]` from the parent. -/
def mergeIntoLeft (ks : List K) (cs : List (BNode K V)) (i : Nat) (l c : BNode K V) :
    Except BTreeStoreError (List K × List (BNode K V)) :=
  match l, c with
  | .leaf lkvs, .leaf ckvs =>
      .ok (ks.eraseIdx (i - 1), (cs.set (i - 1) (.leaf (lkvs ++ ckvs))).eraseIdx i)
  | .internal lks lcs, .internal cks ccs =>
      match ks[i - 1]? with
      | some sep =>
          .ok (ks.eraseIdx (i - 1),
            (cs.set (i - 1) (.internal (lks ++ sep :: cks) (lcs ++ ccs))).eraseIdx i)
      | none => .error .InvariantViolation
  | _, _ => .error .CorruptedPage

/-- Modelled from the spec: `RebalanceResult::MergeIntoSelf` (§4.4): the right
sibling is consumed into child `i`; the parent loses `keys[i]` and
`children[i+1]`. -/
def mergeIntoSelf (ks : List K) (cs : List (BNode K V)) (i : Nat) (c r : BNode K V) :
    Except BTreeStoreError (List K × List (BNode K V)) :=
  match c, r with
  | .leaf ckvs, .leaf rkvs =>
      .ok (ks.eraseIdx i, (cs.set i (.leaf (ckvs ++ rkvs))).eraseIdx (i + 1))
  | .internal cks ccs, .internal rks rcs =>
      match ks[i]? with
      | some sep =>
          .ok (ks.eraseIdx i,
            (cs.set i (.internal (cks ++ sep :: rks) (ccs ++ rcs))).eraseIdx (i + 1))
      | none => .error .InvariantViolation
  | _, _ => .error .CorruptedPage

/-- Modelled from the spec: `Node::rebalance` (§4.4) plus the dispatch in
`delete_async`/`delete_internal`.  Child `i` of the parent `(ks, cs)` became
underfull and was rewritten to `c`.  Tie-break per spec: prefer borrowing over
merging; when both siblings can lend, prefer the left; when both require
merging, merge into the left. -/
def fixChild (minLeaf minInt : Nat) (ks : List K) (cs : List (BNode K V)) (i : Nat)
    (c : BNode K V) : Except BTreeStoreError (List K × List (BNode K V)) :=
  match (if i = 0 then none else cs[i - 1]?), cs[i + 1]? with
  | some l, some r =>
      if canLend minLeaf minInt l then borrowFromLeft ks (cs.set i c) i l c
      else if canLend minLeaf minInt r then borrowFromRight ks (cs.set i c) i c r
      else mergeIntoLeft ks (cs.set i c) i l c
  | some l, none =>
      if canLend minLeaf minInt l then borrowFromLeft ks (cs.set i c) i l c
      else mergeIntoLeft ks (cs.set i c) i l c
  | none, some r =>
      if canLend minLeaf minInt r then borrowFromRight ks (cs.set i c) i c r
      else mergeIntoSelf ks (cs.set i c) i c r
  | none, none => .error .InvariantViolation

namespace BTree

mutual

/-- The recursive core of `delete_async`/`delete_internal`: delete in the leaf
the search descends to; on `NeedsRebalance` rebalance the underfull child
through its parent frame, merging upward while parents in turn underflow. -/
def delNode (minLeaf minInt : Nat) (k : K) :
    BNode K V → Except BTreeStoreError (BNode K V)
  | .leaf kvs => .ok (.leaf (leafDelete kvs k))
  | .internal ks cs =>
      match delChild minLeaf minInt k (childIdx ks cs.length k) cs with
      | .error e => .error e
      | .ok c' =>
          if isUnderfull minLeaf minInt c' then
            match fixChild minLeaf minInt ks cs (childIdx ks cs.length k) c' with
            | .error e => .error e
            | .ok (ks', cs') => .ok (.internal ks' cs')
          else .ok (.internal ks (cs.set (childIdx ks cs.length k) c'))
termination_by t => sizeOf t
decreasing_by all_goals (simp [BNode.internal.sizeOf_spec]; try omega)

/-- Recurse into the `i`-th child during deletion. -/
def delChild (minLeaf minInt : Nat) (k : K) :
    Nat → List (BNode K V) → Except BTreeStoreError (BNode K V)
  | _, [] => .error .CorruptedPage
  | 0, c :: _ => delNode minLeaf minInt k c
  | i + 1, _ :: rest => delChild minLeaf minInt k i rest
termination_by i cs => sizeOf cs
decreasing_by all_goals (simp; try omega)

end

/-- `BTree::delete_async` end to end: an underfull *root* leaf is accepted as
is (no parent frame, no rebalance); an internal root left with zero keys by
`delete_internal` has its sole remaining child (`children().get(0)`, the
anchor being 0) promoted as the new root. -/
def delete_async (minLeaf minInt : Nat) (k : K) (t : BNode K V) :
    Except BTreeStoreError (BNode K V) :=
  match delNode minLeaf minInt k t with
  | .error e => .error e
  | .ok (.internal [] cs) =>
      match cs[0]? with
      | some c => .ok c
      | none => .error .CorruptedPage
  | .ok t' => .ok t'

end BTree

mutual

/-- The descent of `BTreeIterator::new`: walk toward `range.start` pushing
`(internal node, chosen child index)` frames; at the leaf, compute the start
position from `keys().binary_search(&range.start)` — `Ok(pos) ↦ pos`,
`Err(pos) ↦ pos + 1` (sic: the `Err` arm adds one to the insertion point). -/
def iterDescend (start : K) :
    List (BNode K V × Nat) → BNode K V →
      Except BTreeStoreError (List (BNode K V × Nat) × List (K × V) × Nat)
  | stack, .leaf kvs =>
      .ok (stack, kvs,
        if (kvs.map Prod.fst).contains start then insPos start (kvs.map Prod.fst)
        else insPos start (kvs.map Prod.fst) + 1)
  | stack, .internal ks cs =>
      iterDescendChild start ((BNode.internal ks cs, childIdx ks cs.length start) :: stack)
        (childIdx ks cs.length start) cs
termination_by _ t => sizeOf t
decreasing_by all_goals (simp [BNode.internal.sizeOf_spec]; try omega)

/-- Follow the `i`-th child during the iterator's initial descent. -/
def iterDescendChild (start : K) (stack : List (BNode K V × Nat)) :
    Nat → List (BNode K V) →
      Except BTreeStoreError (List (BNode K V × Nat) × List (K × V) × Nat)
  | _, [] => .error .CorruptedPage
  | 0, c :: _ => iterDescend start stack c
  | i + 1, _ :: rest => iterDescendChild start stack i rest
termination_by i cs => sizeOf cs
decreasing_by all_goals (simp; try omega)

end

/-- `BTreeIterator::descend_leftmost`: follow `children().get(0)` down to a
leaf, pushing `(node, 0)` frames. -/
def descendLeftmost :
    List (BNode K V × Nat) → BNode K V →
      Except BTreeStoreError (List (BNode K V × Nat) × List (K × V))
  | stack, .leaf kvs => .ok (stack, kvs)
  | stack, .internal ks cs =>
      match cs with
      | [] => .error .CorruptedPage
      | c :: _ => descendLeftmost ((BNode.internal ks cs, 0) :: stack) c
termination_by _ t => sizeOf t
decreasing_by all_goals (simp [BNode.internal.sizeOf_spec]; try omega)

/-- The `MoveToRightSibling` arm of `BTreeIterator::next`: pop frames until one
has an unvisited next child; re-push the frame with the advanced index and
return that child. -/
def popToNext : List (BNode K V × Nat) → Option (List (BNode K V × Nat) × BNode K V)
  | [] => none
  | (n, last) :: rest =>
      match n with
      | .internal ks cs =>
          match cs[last + 1]? with
          | some c => some ((BNode.internal ks cs, last + 1) :: rest, c)
          | none => popToNext rest
      | .leaf _ => popToNext rest

/-- The driving loop of `BTreeIterator::next`: emit the value at the current
position while its key is `< stop`; stop at the first key `≥ stop`; on leaf
exhaustion move to the next leaf in order.  `fuel` only bounds the recursion;
`range` below supplies more than the iterator can consume. -/
def iterRun (stop : K) : Nat → List (BNode K V × Nat) → List (K × V) → Nat → List V
  | 0, _, _, _ => []
  | fuel + 1, stack, kvs, pos =>
      match kvs[pos]? with
      | some kv =>
          if kv.1 < stop then kv.2 :: iterRun stop fuel stack kvs (pos + 1)
          else []
      | none =>
          match popToNext stack with
          | none => []
          | some (stack', child) =>
              match descendLeftmost stack' child with
              | .error _ => []
              | .ok (stack'', kvs') => iterRun stop fuel stack'' kvs' 0

namespace BTree

/-- `BTree::range(start..end)` materialised: every value the iterator yields,
in order. -/
def range (start stop : K) (t : BNode K V) : List V :=
  match iterDescend start [] t with
  | .error _ => []
  | .ok (stack, kvs, pos) => iterRun stop (weight t + (entries t).length + 1) stack kvs pos

end BTree

/-- `StaticSettings`: written once at creation, read back on `open`, never
changed (`page_size` is a `u16`, `key_buffer_size` a `u32` in the source). -/
structure StaticSettings where
  page_size : Nat
  key_buffer_size : Nat
deriving DecidableEq, Repr

/-- Modelled from the spec: the in-memory state of an open `BTree` (§4.6, §5;
the `version_management` and `metadata` modules are not among the provided
sources).  `committed` is the root published by the `TransactionManager`,
visible to new transactions; `metadata` mirrors the in-memory `Metadata`,
which tracks the last *checkpointed* root (updated only by `checkpoint`,
`guard.0 = new_metadata`). -/
structure TreeState (K V : Type) where
  committed : BNode K V
  metadata : BNode K V
  static_settings : StaticSettings

/-- Modelled from the spec: the three on-disk files (§6) at the content level:
the tree reachable from the root recorded in the metadata file, and the
static-settings file. -/
structure StoredFiles (K V : Type) where
  metadata_file : BNode K V
  static_settings_file : StaticSettings

namespace BTree

/-- `BTree::new`: fresh empty leaf root; the static settings are written to
their file; the initial metadata records that root. -/
def new (page_size key_buffer_size : Nat) : TreeState K V :=
  { committed := .leaf [], metadata := .leaf [],
    static_settings := ⟨page_size, key_buffer_size⟩ }

/-- `BTree::checkpoint`: sync the page file, rewrite the metadata file from
offset 0 with the latest committed version and sync it; the in-memory
metadata now records the committed root. -/
def checkpoint (s : TreeState K V) : TreeState K V :=
  { s with metadata := s.committed }

/-- `<BTree as Drop>::drop`: rewrite the metadata file with the in-memory
metadata (the last checkpointed root) and sync the page file. -/
def close (s : TreeState K V) : StoredFiles K V :=
  ⟨s.metadata, s.static_settings⟩

/-- `BTree::open`: read the static settings and metadata back from the files;
the tree root is the one the metadata file records. -/
def reopen (f : StoredFiles K V) : TreeState K V :=
  { committed := f.metadata_file, metadata := f.metadata_file,
    static_settings := f.static_settings_file }

/-- `BTree::insert_async` on the open-tree state: run the insert inside a
write transaction; on error the `?` operator drops the transaction before
`commit`, so the published root is unchanged; on success the transaction is
committed (no checkpoint). -/
def insert_async (capLeaf capInt : Nat) (s : TreeState K V) (k : K) (v : V) :
    TreeState K V × Option BTreeStoreError :=
  match insert capLeaf capInt k v s.committed with
  | .error e => (s, some e)
  | .ok t => ({ s with committed := t }, none)

/-- `BTree::insert_one`: `insert_async` followed by `checkpoint`. -/
def insert_one (capLeaf capInt : Nat) (s : TreeState K V) (k : K) (v : V) :
    TreeState K V × Option BTreeStoreError :=
  match insert_async capLeaf capInt s k v with
  | (s', none) => (checkpoint s', none)
  | (s', some e) => (s', some e)

/-- `BTree::insert_many`: insert the whole batch inside one write transaction;
only if every insert succeeds are `commit` and `checkpoint` reached — a failed
element makes the `?` operator drop the transaction, publishing nothing. -/
def insert_many (capLeaf capInt : Nat) (s : TreeState K V) (l : List (K × V)) :
    TreeState K V × Option BTreeStoreError :=
  match insertList capLeaf capInt s.committed l with
  | .error e => (s, some e)
  | .ok t => (checkpoint { s with committed := t }, none)

/-- `BTree::delete` on the open-tree state: run `delete_async` in a write
transaction and commit; no checkpoint is folded in ("this doesn't sync the
file to disk").  Errors of `delete_async` are unreachable from wellformed
trees and are reported unchanged. -/
def delete (minLeaf minInt : Nat) (s : TreeState K V) (k : K) :
    TreeState K V × Option BTreeStoreError :=
  match delete_async minLeaf minInt k s.committed with
  | .error e => (s, some e)
  | .ok t => ({ s with committed := t }, none)

end BTree

/-- Uniform depth (spec I4): all leaves of the subtree at the same depth. -/
inductive Depth : BNode K V → Nat → Prop where
  | leaf : ∀ kvs, Depth (.leaf kvs) 1
  | internal : ∀ {ks : List K} {cs : List (BNode K V)} {h : Nat},
      (∀ c ∈ cs, Depth c h) → Depth (.internal ks cs) (h + 1)

/-- Occupancy and shape invariant: every node fits its capacity, internal
nodes have one more child than keys and at least one key, and every non-root
node is at least half-full — leaves hold at least `⌈capLeaf/2⌉` entries,
internal nodes at least `⌊capInt/2⌋` keys. -/
inductive Bal (capLeaf capInt : Nat) : Bool → BNode K V → Prop where
  | leaf : ∀ {root : Bool} {kvs : List (K × V)},
      kvs.length ≤ capLeaf →
      (root = false → (capLeaf + 1) / 2 ≤ kvs.length) →
      Bal capLeaf capInt root (.leaf kvs)
  | internal : ∀ {root : Bool} {ks : List K} {cs : List (BNode K V)},
      cs.length = ks.length + 1 →
      ks.length ≤ capInt →
      1 ≤ ks.length →
      (root = false → capInt / 2 ≤ ks.length) →
      (∀ c ∈ cs, Bal capLeaf capInt false c) →
      Bal capLeaf capInt root (.internal ks cs)

mutual

/-- The half-full bound exactly as the specification states it (I3):
every non-root node holds at least `⌈capacity/2⌉` entries. -/
def halfFullCeil (capLeaf capInt : Nat) : Bool → BNode K V → Bool
  | root, .leaf kvs => root || decide ((capLeaf + 1) / 2 ≤ kvs.length)
  | root, .internal ks cs =>
      (root || decide ((capInt + 1) / 2 ≤ ks.length)) &&
      halfFullCeilList capLeaf capInt cs
termination_by _ t => sizeOf t
decreasing_by all_goals (simp [BNode.internal.sizeOf_spec]; try omega)

/-- `halfFullCeil` over a list of (non-root) siblings. -/
def halfFullCeilList (capLeaf capInt : Nat) : List (BNode K V) → Bool
  | [] => true
  | c :: rest => halfFullCeil capLeaf capInt false c && halfFullCeilList capLeaf capInt rest
termination_by cs => sizeOf cs
decreasing_by all_goals (simp; try omega)

end

/-- `lo ≤ k` against an optional (inclusive) lower bound. -/
def loLE (lo : Option K) (k : K) : Prop := ∀ l ∈ lo, l ≤ k

/-- `lo < k` against an optional lower bound (used for separator keys). -/
def loLT (lo : Option K) (k : K) : Prop := ∀ l ∈ lo, l < k

/-- `k < hi` against an optional (exclusive) upper bound. -/
def hiGT (hi : Option K) (k : K) : Prop := ∀ h ∈ hi, k < h

mutual

/-- Search-tree wellformedness (spec I1, I2) between an optional inclusive
lower bound `lo` and an optional exclusive upper bound `hi`: keys strictly
ascending within each node, and each child of an internal node covering
exactly the interval between the neighbouring separators — the subtree left
of a separator is strictly below it, the subtree right of it at or above it. -/
def WF (lo hi : Option K) : BNode K V → Prop
  | .leaf kvs =>
      List.Chain' (· < ·) (kvs.map Prod.fst) ∧
      ∀ kv ∈ kvs, loLE lo kv.1 ∧ hiGT hi kv.1
  | .internal ks cs => ks ≠ [] ∧ WFChain lo hi cs ks
termination_by t => sizeOf t
decreasing_by all_goals (simp [BNode.internal.sizeOf_spec]; try omega)

/-- The children/keys alternation of a wellformed internal node: one more
child than keys, child `i` bounded by separators `i-1` and `i`. -/
def WFChain (lo hi : Option K) : List (BNode K V) → List K → Prop
  | c :: cs, x :: ks =>
      loLT lo x ∧ hiGT hi x ∧ WF lo (some x) c ∧ WFChain (some x) hi cs ks
  | [c], [] => WF lo hi c
  | _, _ => False
termination_by cs _ => sizeOf cs
decreasing_by all_goals (simp; try omega)

end

/-- Number of entries (leaf) or keys (internal) held by a node. -/
def lenOf : BNode K V → Nat
  | .leaf kvs => kvs.length
  | .internal ks _ => ks.length

/-- `true` iff the node is a leaf. -/
def kindOf : BNode K V → Bool
  | .leaf _ => true
  | .internal _ _ => false

/-- The occupancy facts `Bal` guarantees about a node *except* its own
minimum: capacity and shape hold, and every child is a balanced non-root
node.  This is what deletion guarantees for the node it rewrites (the
node itself may be left underfull, for its parent — or the root rules —
to resolve). -/
def NodeFits (capLeaf capInt : Nat) : BNode K V → Prop
  | .leaf kvs => kvs.length ≤ capLeaf
  | .internal ks cs =>
      cs.length = ks.length + 1 ∧ ks.length ≤ capInt ∧
      ∀ c ∈ cs, Bal capLeaf capInt false c

/-- Trees reachable from `BTree::new` by successful inserts and deletes, at
leaf capacity `capLeaf` and internal (key) capacity `capInt`; the delete
thresholds are the half-full minima fixed by those capacities. -/
inductive Reachable (capLeaf capInt : Nat) : BNode K V → Prop where
  | new : Reachable capLeaf capInt (.leaf [])
  | ins : ∀ {t u : BNode K V} {k : K} {v : V}, Reachable capLeaf capInt t →
      BTree.insert capLeaf capInt k v t = .ok u → Reachable capLeaf capInt u
  | del : ∀ {t u : BNode K V} {k : K}, Reachable capLeaf capInt t →
      BTree.delete_async ((capLeaf + 1) / 2) (capInt / 2) k t = .ok u →
      Reachable capLeaf capInt u

/-- Concrete facade state used in the C5 counterexample: a fresh tree into
which the single-element batch `[(1, 1)]` was inserted by `insert_many`
(committed and checkpointed). -/
def c5state : TreeState Nat Nat :=
  (BTree.insert_many 2 3 (BTree.new 88 8) [(1, 1)]).1

/-! ## Theorems -/

theorem insPos_le_length (k : K) (ks : List K) : insPos k ks ≤ ks.length := by
  induction ks with
  | nil => simp [insPos]
  | cons x xs ih =>
      simp only [insPos, List.length_cons]
      split <;> omega

theorem upperPivot_le_length (k : K) (ks : List K) : upperPivot k ks ≤ ks.length := by
  induction ks with
  | nil => simp [upperPivot]
  | cons x xs ih =>
      simp only [upperPivot, List.length_cons]
      split <;> omega

theorem childIdx_lt {ks : List K} {csLen : Nat} (k : K) (h : 0 < csLen) :
    childIdx ks csLen k < csLen := by
  unfold childIdx; split <;> omega

theorem childIdx_eq_upperPivot {ks : List K} {csLen : Nat} (k : K)
    (h : csLen = ks.length + 1) : childIdx ks csLen k = upperPivot k ks := by
  have := upperPivot_le_length k ks
  unfold childIdx; split <;> omega

theorem insChild_eq (cl ci : Nat) (k : K) (v : V) (i : Nat) (cs : List (BNode K V)) :
    BTree.insChild cl ci k v i cs
      = match cs[i]? with
        | none => .error .CorruptedPage
        | some c => BTree.insNode cl ci k v c := by
  induction cs generalizing i with
  | nil => cases i <;> simp [BTree.insChild]
  | cons c rest ih =>
      cases i with
      | zero => simp [BTree.insChild]
      | succ j => simpa [BTree.insChild] using ih j

theorem delChild_eq (ml mi : Nat) (k : K) (i : Nat) (cs : List (BNode K V)) :
    BTree.delChild ml mi k i cs
      = match cs[i]? with
        | none => .error .CorruptedPage
        | some c => BTree.delNode ml mi k c := by
  induction cs generalizing i with
  | nil => cases i <;> simp [BTree.delChild]
  | cons c rest ih =>
      cases i with
      | zero => simp [BTree.delChild]
      | succ j => simpa [BTree.delChild] using ih j

theorem searchChild_eq (k : K) (i : Nat) (cs : List (BNode K V)) :
    BTree.searchChild (V := V) k i cs
      = match cs[i]? with
        | none => .error .CorruptedPage
        | some c => BTree.search k c := by
  induction cs generalizing i with
  | nil => cases i <;> simp [BTree.searchChild]
  | cons c rest ih =>
      cases i with
      | zero => simp [BTree.searchChild]
      | succ j => simpa [BTree.searchChild] using ih j

theorem fits_of_bal {cl ci : Nat} {b : Bool} {x : BNode K V} (h : Bal cl ci b x) :
    NodeFits cl ci x ∧
    (b = false → (kindOf x = true → (cl + 1) / 2 ≤ lenOf x) ∧
      (kindOf x = false → ci / 2 ≤ lenOf x)) ∧
    (kindOf x = false → 1 ≤ lenOf x) := by
  cases h with
  | leaf hlen hmin =>
      refine ⟨hlen, fun hb => ⟨fun _ => hmin hb, fun h => by cases h⟩, fun h => by cases h⟩
  | internal hshape hcap hone hmin hcs =>
      refine ⟨?_, ?_, ?_⟩
      · show _ ∧ _ ∧ _
        exact And.intro hshape (And.intro hcap hcs)
      · exact fun hb => And.intro (fun h => by simp [kindOf] at h) (fun _ => hmin hb)
      · exact fun _ => hone

theorem bal_false_of_fits {cl ci : Nat} {x : BNode K V} (hci : 2 ≤ ci)
    (hf : NodeFits cl ci x)
    (hminL : kindOf x = true → (cl + 1) / 2 ≤ lenOf x)
    (hminI : kindOf x = false → ci / 2 ≤ lenOf x) : Bal cl ci false x := by
  cases x with
  | leaf kvs => exact Bal.leaf hf (fun _ => hminL rfl)
  | internal ks cs =>
      obtain ⟨hshape, hcap, hcs⟩ := hf
      have hmi : ci / 2 ≤ ks.length := hminI rfl
      exact Bal.internal hshape hcap (by omega) (fun _ => hmi) hcs

theorem bal_true_of_fits {cl ci : Nat} {x : BNode K V}
    (hf : NodeFits cl ci x) (hone : kindOf x = false → 1 ≤ lenOf x) :
    Bal cl ci true x := by
  cases x with
  | leaf kvs => exact Bal.leaf hf (fun h => by cases h)
  | internal ks cs =>
      obtain ⟨hshape, hcap, hcs⟩ := hf
      exact Bal.internal hshape hcap (hone rfl) (fun h => by cases h) hcs

theorem depth_internal_inv {ks : List K} {cs : List (BNode K V)} {h : Nat}
    (hd : Depth (.internal ks cs) h) :
    ∃ hh, h = hh + 1 ∧ ∀ c ∈ cs, Depth c hh := by
  cases hd with
  | internal hcs => exact ⟨_, rfl, hcs⟩

/-- `leafInsert` case analysis on a leaf within capacity: the result is a
duplicate report, an in-place insert, or a split into halves of the stated
sizes. -/
theorem leafInsert_cases (cl : Nat) (hcl : 1 ≤ cl) (k : K) (v : V)
    (kvs : List (K × V)) (hlen : kvs.length ≤ cl) :
    (k ∈ kvs.map Prod.fst ∧ leafInsert cl k v kvs = .DuplicatedKey) ∨
    (k ∉ kvs.map Prod.fst ∧ kvs.length < cl ∧
      leafInsert cl k v kvs
        = .Ok (kvs.insertIdx (insPos k (kvs.map Prod.fst)) (k, v))) ∨
    (k ∉ kvs.map Prod.fst ∧ kvs.length = cl ∧
      ∃ sk l r, leafInsert cl k v kvs = .Split sk l r ∧
        l.length = (cl + 2) / 2 ∧ r.length = (cl + 1) / 2 ∧
        l ++ r = kvs.insertIdx (insPos k (kvs.map Prod.fst)) (k, v) ∧
        ∃ kv rtail, r = kv :: rtail ∧ sk = kv.1) := by
  by_cases hk : k ∈ kvs.map Prod.fst
  · left
    refine ⟨hk, ?_⟩
    unfold leafInsert
    simp [hk]
  · right
    have hcont : (kvs.map Prod.fst).contains k = false := by simp [hk]
    have hpos : insPos k (kvs.map Prod.fst) ≤ kvs.length := by
      have := insPos_le_length k (kvs.map Prod.fst)
      simpa using this
    have hlen' : (kvs.insertIdx (insPos k (kvs.map Prod.fst)) (k, v)).length
        = kvs.length + 1 := List.length_insertIdx _ _ hpos
    by_cases hfull : kvs.length + 1 ≤ cl
    · left
      refine ⟨hk, by omega, ?_⟩
      unfold leafInsert
      simp only [hcont, Bool.false_eq_true, if_false, hlen', hfull, if_true]
    · right
      have hcap : kvs.length = cl := by omega
      refine ⟨hk, hcap, ?_⟩
      set kvs' := kvs.insertIdx (insPos k (kvs.map Prod.fst)) (k, v) with hkvs'
      have hlen2 : kvs'.length = cl + 1 := by rw [hlen', hcap]
      have hmlt : (cl + 2) / 2 < kvs'.length := by omega
      cases hd : kvs'.drop ((cl + 2) / 2) with
      | nil =>
          exfalso
          have := List.length_drop ((cl + 2) / 2) kvs'
          rw [hd] at this
          simp at this
          omega
      | cons kv rest =>
          refine ⟨kv.1, kvs'.take ((cl + 2) / 2), kv :: rest, ?_, ?_, ?_, ?_, ?_⟩
          · unfold leafInsert
            simp only [hcont, Bool.false_eq_true, if_false, ← hkvs', hlen2]
            have hno : ¬ (cl + 1 ≤ cl) := by omega
            have h22 : (cl + 1 + 1) / 2 = (cl + 2) / 2 := by omega
            simp only [hno, if_false, h22, hd]
          · rw [List.length_take]; omega
          · have hdl := List.length_drop ((cl + 2) / 2) kvs'
            rw [hd, hlen2] at hdl
            simp only [List.length_cons] at hdl ⊢
            omega
          · rw [← hd, List.take_append_drop]
          · exact ⟨kv, rest, rfl, rfl⟩

/-- `internalInsert` case analysis on a node within capacity. -/
theorem internalInsert_cases (ci : Nat) (hci : 2 ≤ ci) (sk : K) (r : BNode K V)
    (ks : List K) (cs : List (BNode K V))
    (hshape : cs.length = ks.length + 1) (hks : ks.length ≤ ci) :
    (ks.length < ci ∧
      internalInsert ci sk r ks cs
        = .Ok (ks.insertIdx (insPos sk ks) sk) (cs.insertIdx (insPos sk ks + 1) r)) ∨
    (ks.length = ci ∧
      ∃ pk lks lcs rks rcs, internalInsert ci sk r ks cs = .Split pk lks lcs rks rcs ∧
        lks.length = (ci + 1) / 2 ∧ rks.length = ci / 2 ∧
        lcs.length = lks.length + 1 ∧ rcs.length = rks.length + 1 ∧
        (∀ x ∈ lcs, x ∈ cs ∨ x = r) ∧ (∀ x ∈ rcs, x ∈ cs ∨ x = r)) := by
  have hpos : insPos sk ks ≤ ks.length := insPos_le_length sk ks
  have hlk : (ks.insertIdx (insPos sk ks) sk).length = ks.length + 1 :=
    List.length_insertIdx _ _ hpos
  have hlc : (cs.insertIdx (insPos sk ks + 1) r).length = cs.length + 1 :=
    List.length_insertIdx _ _ (by omega)
  by_cases hfull : ks.length + 1 ≤ ci
  · left
    refine ⟨by omega, ?_⟩
    unfold internalInsert
    simp only [hlk, hfull, if_true]
  · right
    have hcap : ks.length = ci := by omega
    refine ⟨hcap, ?_⟩
    set ks' := ks.insertIdx (insPos sk ks) sk with hks'
    set cs' := cs.insertIdx (insPos sk ks + 1) r with hcs'
    have hlen2 : ks'.length = ci + 1 := by rw [hlk, hcap]
    have hmlt : (ci + 1) / 2 < ks'.length := by omega
    cases hd : ks'.drop (ks'.length / 2) with
    | nil =>
        exfalso
        have := List.length_drop (ks'.length / 2) ks'
        rw [hd] at this
        simp at this
        omega
    | cons pk rks =>
        have hrlen : rks.length = ci / 2 := by
          have := List.length_drop (ks'.length / 2) ks'
          rw [hd] at this
          simp only [List.length_cons] at this
          omega
        refine ⟨pk, ks'.take (ks'.length / 2), cs'.take (ks'.length / 2 + 1),
          rks, cs'.drop (ks'.length / 2 + 1), ?_, ?_, hrlen, ?_, ?_, ?_, ?_⟩
        · unfold internalInsert
          simp only [← hks', ← hcs', hlen2]
          have hno : ¬ (ci + 1 ≤ ci) := by omega
          simp only [hno, if_false]
          rw [← hlen2, hd]
        · rw [List.length_take]; omega
        · rw [List.length_take, List.length_take]
          have : cs'.length = ci + 2 := by rw [hlc, hshape, hcap]
          omega
        · rw [List.length_drop]
          have : cs'.length = ci + 2 := by rw [hlc, hshape, hcap]
          omega
        · intro x hx
          have hx' : x ∈ cs' := List.take_subset _ _ hx
          rw [hcs'] at hx'
          rcases (List.mem_insertIdx (by omega)).1 hx' with h | h
          · exact Or.inr h
          · exact Or.inl h
        · intro x hx
          have hx' : x ∈ cs' := List.drop_subset _ _ hx
          rw [hcs'] at hx'
          rcases (List.mem_insertIdx (by omega)).1 hx' with h | h
          · exact Or.inr h
          · exact Or.inl h

theorem insChild_eq_some {cl ci : Nat} {k : K} {v : V} {i : Nat}
    {cs : List (BNode K V)} {c : BNode K V} (h : cs[i]? = some c) :
    BTree.insChild cl ci k v i cs = BTree.insNode cl ci k v c := by
  rw [insChild_eq, h]

theorem delChild_eq_some {ml mi : Nat} {k : K} {i : Nat}
    {cs : List (BNode K V)} {c : BNode K V} (h : cs[i]? = some c) :
    BTree.delChild ml mi k i cs = BTree.delNode ml mi k c := by
  rw [delChild_eq, h]

theorem searchChild_eq_some {k : K} {i : Nat}
    {cs : List (BNode K V)} {c : BNode K V} (h : cs[i]? = some c) :
    BTree.searchChild (V := V) k i cs = BTree.search k c := by
  rw [searchChild_eq, h]

theorem bal_false_upgrade {cl ci : Nat} {c c' : BNode K V} (hci : 2 ≤ ci)
    (hb : Bal cl ci false c) (hf : NodeFits cl ci c') (hk : kindOf c' = kindOf c)
    (hlen : lenOf c ≤ lenOf c') : Bal cl ci false c' := by
  obtain ⟨-, hmin, -⟩ := fits_of_bal hb
  obtain ⟨hminL, hminI⟩ := hmin rfl
  refine bal_false_of_fits hci hf ?_ ?_
  · intro hk'
    exact le_trans (hminL (hk ▸ hk')) hlen
  · intro hk'
    exact le_trans (hminI (hk ▸ hk')) hlen

/-- Insert preservation core: on a node satisfying the shape/capacity bounds
whose strict subnodes are balanced, a successful `insNode` returns either a
rewritten node with the same kind and depth, fitting again, holding at least
as many entries; or a split into two balanced non-root halves at the same
depth. -/
theorem insNode_bal {cl ci : Nat} (hcl : 1 ≤ cl) (hci : 2 ≤ ci) (k : K) (v : V) :
    ∀ t : BNode K V, ∀ h : Nat, NodeFits cl ci t → Depth t h →
      ∀ res, BTree.insNode cl ci k v t = .ok res →
        (∀ t', res = .done t' →
          NodeFits cl ci t' ∧ Depth t' h ∧ kindOf t' = kindOf t ∧ lenOf t ≤ lenOf t') ∧
        (∀ l sk r, res = .split l sk r →
          Bal cl ci false l ∧ Bal cl ci false r ∧ Depth l h ∧ Depth r h) := by
  intro t
  induction t using BNode.strongInduction with
  | hleaf kvs =>
      intro h hf hd res hres
      cases hd
      simp only [BTree.insNode] at hres
      have hflen : kvs.length ≤ cl := hf
      rcases leafInsert_cases cl hcl k v kvs hflen with ⟨-, heq⟩ | ⟨-, hlt, heq⟩ |
        ⟨-, hcap, sk, l, r, heq, hll, hrl, happ, -⟩
      · rw [heq] at hres
        cases hres
      · rw [heq] at hres
        have hpos : insPos k (kvs.map Prod.fst) ≤ kvs.length := by
          have := insPos_le_length k (kvs.map Prod.fst)
          simpa using this
        have hlen' : (kvs.insertIdx (insPos k (kvs.map Prod.fst)) (k, v)).length
            = kvs.length + 1 := List.length_insertIdx _ _ hpos
        simp only [Except.ok.injEq] at hres
        subst hres
        constructor
        · intro t' ht'
          cases ht'
          refine ⟨?_, Depth.leaf _, rfl, ?_⟩
          · show _ ≤ cl
            omega
          · show kvs.length ≤ (kvs.insertIdx (insPos k (kvs.map Prod.fst)) (k, v)).length
            omega
        · intro l sk r ht'
          cases ht'
      · rw [heq] at hres
        simp only [Except.ok.injEq] at hres
        subst hres
        constructor
        · intro t' ht'
          cases ht'
        · intro l' sk' r' ht'
          cases ht'
          have h1 : (cl + 2) / 2 ≤ cl := by omega
          have h2 : (cl + 1) / 2 ≤ cl := by omega
          refine ⟨Bal.leaf (by omega) (fun _ => by omega),
            Bal.leaf (by omega) (fun _ => by omega), Depth.leaf _, Depth.leaf _⟩
  | hint ks cs ih =>
      intro h hf hd res hres
      have hf' : cs.length = ks.length + 1 ∧ ks.length ≤ ci ∧
          ∀ c ∈ cs, Bal cl ci false c := hf
      obtain ⟨hshape, hcap, hcs⟩ := hf'
      obtain ⟨hh, rfl, hdc⟩ := depth_internal_inv hd
      have hilt : childIdx ks cs.length k < cs.length := childIdx_lt k (by omega)
      obtain ⟨c, hc⟩ : ∃ c, cs[childIdx ks cs.length k]? = some c :=
        ⟨_, List.getElem?_eq_getElem hilt⟩
      have hmem : c ∈ cs := List.getElem?_mem hc
      simp only [BTree.insNode] at hres
      rw [insChild_eq_some hc] at hres
      cases hrec : BTree.insNode cl ci k v c with
      | error e => rw [hrec] at hres; cases hres
      | ok ir =>
          rw [hrec] at hres
          have hcb := hcs c hmem
          have hcf := (fits_of_bal hcb).1
          have IH := ih c hmem hh hcf (hdc c hmem) ir hrec
          cases ir with
          | done c' =>
              simp only [Except.ok.injEq] at hres
              subst hres
              obtain ⟨hf', hd', hk', hl'⟩ := IH.1 c' rfl
              have hbal' : Bal cl ci false c' := bal_false_upgrade hci hcb hf' hk' hl'
              constructor
              · intro t' ht'
                cases ht'
                refine ⟨?_, ?_, rfl, le_refl _⟩
                · show _ ∧ _ ∧ _
                  refine ⟨by simpa using hshape, hcap, ?_⟩
                  intro x hx
                  rcases List.mem_or_eq_of_mem_set hx with h | h
                  · exact hcs x h
                  · exact h ▸ hbal'
                · refine Depth.internal ?_
                  intro x hx
                  rcases List.mem_or_eq_of_mem_set hx with h | h
                  · exact hdc x h
                  · exact h ▸ hd'
              · intro l sk r ht'
                cases ht'
          | split l sk r =>
              obtain ⟨hbl, hbr, hdl, hdr⟩ := IH.2 l sk r rfl
              have hsetlen : (cs.set (childIdx ks cs.length k) l).length = ks.length + 1 := by
                simpa using hshape
              have hsetmem : ∀ x ∈ cs.set (childIdx ks cs.length k) l,
                  Bal cl ci false x ∧ Depth x hh := by
                intro x hx
                rcases List.mem_or_eq_of_mem_set hx with h | h
                · exact ⟨hcs x h, hdc x h⟩
                · exact ⟨h ▸ hbl, h ▸ hdl⟩
              rcases internalInsert_cases ci hci sk r ks (cs.set (childIdx ks cs.length k) l)
                  hsetlen hcap with ⟨hlt, heq⟩ |
                ⟨hcap', pk, lks, lcs, rks, rcs, heq, hlkl, hrkl, hlcl, hrcl, hlmem, hrmem⟩
              · simp only [heq, Except.ok.injEq] at hres
                subst hres
                have hpos : insPos sk ks ≤ ks.length := insPos_le_length sk ks
                have hklen : (ks.insertIdx (insPos sk ks) sk).length = ks.length + 1 :=
                  List.length_insertIdx _ _ hpos
                have hclen : ((cs.set (childIdx ks cs.length k) l).insertIdx
                    (insPos sk ks + 1) r).length = ks.length + 2 := by
                  rw [List.length_insertIdx _ _ (by omega), hsetlen]
                constructor
                · intro t' ht'
                  cases ht'
                  refine ⟨?_, ?_, rfl, ?_⟩
                  · show _ ∧ _ ∧ _
                    refine ⟨by omega, by omega, ?_⟩
                    intro x hx
                    rcases (List.mem_insertIdx (by omega)).1 hx with h | h
                    · exact h ▸ hbr
                    · exact (hsetmem x h).1
                  · refine Depth.internal ?_
                    intro x hx
                    rcases (List.mem_insertIdx (by omega)).1 hx with h | h
                    · exact h ▸ hdr
                    · exact (hsetmem x h).2
                  · show ks.length ≤ (ks.insertIdx (insPos sk ks) sk).length
                    omega
                · intro l' sk' r' ht'
                  cases ht'
              · simp only [heq, Except.ok.injEq] at hres
                subst hres
                constructor
                · intro t' ht'
                  cases ht'
                · intro l' sk' r' ht'
                  cases ht'
                  refine ⟨?_, ?_, ?_, ?_⟩
                  · refine Bal.internal (by omega) (by omega) (by omega) (fun _ => by omega) ?_
                    intro x hx
                    rcases hlmem x hx with h | h
                    · exact (hsetmem x h).1
                    · exact h ▸ hbr
                  · refine Bal.internal (by omega) (by omega) (by omega) (fun _ => by omega) ?_
                    intro x hx
                    rcases hrmem x hx with h | h
                    · exact (hsetmem x h).1
                    · exact h ▸ hbr
                  · refine Depth.internal ?_
                    intro x hx
                    rcases hlmem x hx with h | h
                    · exact (hsetmem x h).2
                    · exact h ▸ hdr
                  · refine Depth.internal ?_
                    intro x hx
                    rcases hrmem x hx with h | h
                    · exact (hsetmem x h).2
                    · exact h ▸ hdr

/-- `BTree::insert` preserves balance and uniform depth (insert side of the
reachable-state invariant); the depth grows by one exactly on a root split. -/
theorem insert_bal {cl ci : Nat} (hcl : 1 ≤ cl) (hci : 2 ≤ ci) {k : K} {v : V}
    {t t' : BNode K V} {h : Nat} (hb : Bal cl ci true t) (hd : Depth t h)
    (hins : BTree.insert cl ci k v t = .ok t') :
    Bal cl ci true t' ∧ ∃ h', Depth t' h' := by
  unfold BTree.insert at hins
  have hf := (fits_of_bal hb).1
  have hone := (fits_of_bal hb).2.2
  cases hres : BTree.insNode cl ci k v t with
  | error e => rw [hres] at hins; cases hins
  | ok res =>
      rw [hres] at hins
      have I := insNode_bal hcl hci k v t h hf hd res hres
      cases res with
      | done t2 =>
          simp only [Except.ok.injEq] at hins
          subst hins
          obtain ⟨hf', hd', hk', hl'⟩ := I.1 t2 rfl
          refine ⟨bal_true_of_fits hf' ?_, h, hd'⟩
          intro hkind
          exact le_trans (hone (hk' ▸ hkind)) hl'
      | split l sk r =>
          simp only [Except.ok.injEq] at hins
          subst hins
          obtain ⟨hbl, hbr, hdl, hdr⟩ := I.2 l sk r rfl
          refine ⟨Bal.internal (by simp) (by simp; omega) (by norm_num)
            (fun hfalse => by cases hfalse) ?_, h + 1, Depth.internal ?_⟩
          · intro x hx
            rcases List.mem_cons.1 hx with h | h
            · exact h ▸ hbl
            · rcases List.mem_cons.1 h with h | h
              · exact h ▸ hbr
              · cases h
          · intro x hx
            rcases List.mem_cons.1 hx with h | h
            · exact h ▸ hdl
            · rcases List.mem_cons.1 h with h | h
              · exact h ▸ hdr
              · cases h

theorem getElem?_eraseIdx_lt_idx {α : Type} {l : List α} :
    ∀ {i j : Nat}, j < i → (l.eraseIdx i)[j]? = l[j]? := by
  induction l with
  | nil => intro i j _; simp [List.eraseIdx]
  | cons a t ih =>
      intro i j hj
      cases i with
      | zero => omega
      | succ i' =>
          cases j with
          | zero => simp [List.eraseIdx]
          | succ j' =>
              simp only [List.eraseIdx, List.getElem?_cons_succ]
              exact ih (by omega)

theorem getElem?_eraseIdx_ge_idx {α : Type} {l : List α} :
    ∀ {i j : Nat}, i ≤ j → (l.eraseIdx i)[j]? = l[j + 1]? := by
  induction l with
  | nil => intro i j _; simp [List.eraseIdx]
  | cons a t ih =>
      intro i j hj
      cases i with
      | zero => simp [List.eraseIdx]
      | succ i' =>
          cases j with
          | zero => omega
          | succ j' =>
              simp only [List.eraseIdx, List.getElem?_cons_succ]
              exact ih (by omega)

theorem mem_set_set {α : Type} {l : List α} {a b : Nat} {A B x : α}
    (hab : a ≠ b) (ha : a < l.length) (hb : b < l.length)
    (hx : x ∈ (l.set a A).set b B) :
    x = A ∨ x = B ∨ ∃ j, j ≠ a ∧ j ≠ b ∧ l[j]? = some x := by
  obtain ⟨j, hj⟩ := List.mem_iff_getElem?.1 hx
  by_cases hjb : j = b
  · subst hjb
    rw [List.getElem?_set_self (by simpa using hb)] at hj
    exact Or.inr (Or.inl (Option.some.inj hj).symm)
  · rw [List.getElem?_set_ne (fun h => hjb h.symm)] at hj
    by_cases hja : j = a
    · subst hja
      rw [List.getElem?_set_self ha] at hj
      exact Or.inl (Option.some.inj hj).symm
    · rw [List.getElem?_set_ne (fun h => hja h.symm)] at hj
      exact Or.inr (Or.inr ⟨j, hja, hjb, hj⟩)

theorem mem_set_eraseIdx {α : Type} {l : List α} {a e : Nat} {A x : α}
    (ha : a < l.length) (hae : a < e)
    (hx : x ∈ (l.set a A).eraseIdx e) :
    x = A ∨ ∃ j, j ≠ a ∧ j ≠ e ∧ l[j]? = some x := by
  obtain ⟨j, hj⟩ := List.mem_iff_getElem?.1 hx
  by_cases hje : j < e
  · rw [getElem?_eraseIdx_lt_idx hje] at hj
    by_cases hja : j = a
    · subst hja
      rw [List.getElem?_set_self ha] at hj
      exact Or.inl (Option.some.inj hj).symm
    · rw [List.getElem?_set_ne (fun h => hja h.symm)] at hj
      exact Or.inr ⟨j, hja, by omega, hj⟩
  · rw [getElem?_eraseIdx_ge_idx (by omega)] at hj
    rw [List.getElem?_set_ne (by omega)] at hj
    exact Or.inr ⟨j + 1, by omega, by omega, hj⟩

/-- What `take_key_from_left` produces, when it succeeds: the parent keeps its
key count, the children array keeps its length, and every child slot again
holds a balanced non-root node of the same depth. -/
theorem borrowFromLeft_ok {cl ci : Nat} {ks ks' : List K}
    {cs0 cs' : List (BNode K V)} {i : Nat} {l c' : BNode K V} {hh : Nat}
    (hok : borrowFromLeft ks cs0 i l c' = .ok (ks', cs'))
    (hi0 : i ≠ 0) (hilt : i < cs0.length) (hi1 : i - 1 < cs0.length)
    (hl : Bal cl ci false l) (hdl : Depth l hh)
    (hcan : canLend ((cl + 1) / 2) (ci / 2) l = true)
    (hcf : NodeFits cl ci c') (hcd : Depth c' hh)
    (hlenL : kindOf c' = true → lenOf c' + 1 = (cl + 1) / 2)
    (hlenI : kindOf c' = false → lenOf c' + 1 = ci / 2)
    (hcl : 1 ≤ cl) (hci : 2 ≤ ci)
    (hold : ∀ j x, j ≠ i → j ≠ i - 1 → cs0[j]? = some x →
      Bal cl ci false x ∧ Depth x hh) :
    ks'.length = ks.length ∧ cs'.length = cs0.length ∧
    (∀ x ∈ cs', Bal cl ci false x ∧ Depth x hh) := by
  cases l with
  | leaf lkvs =>
      cases c' with
      | leaf ckvs =>
          simp only [borrowFromLeft] at hok
          cases hgl : lkvs.getLast? with
          | none => rw [hgl] at hok; cases hok
          | some kv =>
              rw [hgl] at hok
              simp only [Except.ok.injEq, Prod.mk.injEq] at hok
              obtain ⟨hks', hcs'⟩ := hok
              subst hks'; subst hcs'
              have hck : ckvs.length + 1 = (cl + 1) / 2 := hlenL rfl
              cases hcd
              obtain ⟨hllen, hlmin⟩ : lkvs.length ≤ cl ∧ (cl + 1) / 2 ≤ lkvs.length := by
                cases hl with
                | leaf ha hb => exact ⟨ha, hb rfl⟩
              have hlgt : (cl + 1) / 2 < lkvs.length := by
                simpa [canLend] using hcan
              have hcfl : ckvs.length ≤ cl := hcf
              refine ⟨by simp, by simp, ?_⟩
              intro x hx
              rcases mem_set_set (by omega) hi1 hilt hx with h | h | ⟨j, hja, hjb, hj⟩
              · subst h
                refine ⟨Bal.leaf ?_ (fun _ => ?_), Depth.leaf _⟩
                · rw [List.length_dropLast]; omega
                · rw [List.length_dropLast]; omega
              · subst h
                refine ⟨Bal.leaf (by simp; omega) (fun _ => by simp; omega), Depth.leaf _⟩
              · exact hold j x hjb hja hj
      | internal cks ccs => simp [borrowFromLeft] at hok
  | internal lks lcs =>
      cases c' with
      | leaf ckvs => simp [borrowFromLeft] at hok
      | internal cks ccs =>
          simp only [borrowFromLeft] at hok
          cases hsep : ks[i - 1]? with
          | none => rw [hsep] at hok; cases hok
          | some sep =>
          cases hgk : lks.getLast? with
          | none => rw [hsep, hgk] at hok; cases hok
          | some lk =>
          cases hgc : lcs.getLast? with
          | none => rw [hsep, hgk, hgc] at hok; cases hok
          | some lc =>
              rw [hsep, hgk, hgc] at hok
              simp only [Except.ok.injEq, Prod.mk.injEq] at hok
              obtain ⟨hks', hcs'⟩ := hok
              subst hks'; subst hcs'
              have hck : cks.length + 1 = ci / 2 := hlenI rfl
              obtain ⟨hcshape, hccap, hcmem⟩ :
                  ccs.length = cks.length + 1 ∧ cks.length ≤ ci ∧
                  ∀ c ∈ ccs, Bal cl ci false c := hcf
              obtain ⟨h2, hh2, hcdm⟩ := depth_internal_inv hcd
              subst hh2
              obtain ⟨h2l, hh2l, hdlm⟩ := depth_internal_inv hdl
              have hh2eq : h2l = h2 := by omega
              subst hh2eq
              have hlstats : lcs.length = lks.length + 1 ∧ lks.length ≤ ci ∧
                  ci / 2 ≤ lks.length ∧ (∀ c ∈ lcs, Bal cl ci false c) := by
                cases hl with
                | internal ha hb hc hd2 he => exact ⟨ha, hb, hd2 rfl, he⟩
              obtain ⟨hlshape, hlcap, hlmin, hlmem⟩ := hlstats
              have hlgt : ci / 2 < lks.length := by
                simpa [canLend] using hcan
              have hlksne : lks ≠ [] := by
                intro hemp
                rw [hemp] at hgk
                cases hgk
              refine ⟨by simp, by simp, ?_⟩
              intro x hx
              rcases mem_set_set (by omega) hi1 hilt hx with h | h | ⟨j, hja, hjb, hj⟩
              · subst h
                refine ⟨Bal.internal ?_ ?_ ?_ (fun _ => ?_) ?_, Depth.internal ?_⟩
                · rw [List.length_dropLast, List.length_dropLast]; omega
                · rw [List.length_dropLast]; omega
                · rw [List.length_dropLast]; omega
                · rw [List.length_dropLast]; omega
                · intro y hy
                  exact hlmem y (List.dropLast_subset _ hy)
                · intro y hy
                  exact hdlm y (List.dropLast_subset _ hy)
              · subst h
                refine ⟨Bal.internal (by simp; omega) (by simp; omega) (by simp)
                  (fun _ => by simp; omega) ?_, Depth.internal ?_⟩
                · intro y hy
                  rcases List.mem_cons.1 hy with h | h
                  · subst h
                    exact hlmem y (List.mem_of_mem_getLast? hgc)
                  · exact hcmem y h
                · intro y hy
                  rcases List.mem_cons.1 hy with h | h
                  · subst h
                    exact hdlm y (List.mem_of_mem_getLast? hgc)
                  · exact hcdm y h
              · exact hold j x hjb hja hj

/-- What `take_key_from_right` produces, when it succeeds. -/
theorem borrowFromRight_ok {cl ci : Nat} {ks ks' : List K}
    {cs0 cs' : List (BNode K V)} {i : Nat} {c' r : BNode K V} {hh : Nat}
    (hok : borrowFromRight ks cs0 i c' r = .ok (ks', cs'))
    (hilt : i < cs0.length) (hi1 : i + 1 < cs0.length)
    (hr : Bal cl ci false r) (hdr : Depth r hh)
    (hcan : canLend ((cl + 1) / 2) (ci / 2) r = true)
    (hcf : NodeFits cl ci c') (hcd : Depth c' hh)
    (hlenL : kindOf c' = true → lenOf c' + 1 = (cl + 1) / 2)
    (hlenI : kindOf c' = false → lenOf c' + 1 = ci / 2)
    (hcl : 1 ≤ cl) (hci : 2 ≤ ci)
    (hold : ∀ j x, j ≠ i → j ≠ i + 1 → cs0[j]? = some x →
      Bal cl ci false x ∧ Depth x hh) :
    ks'.length = ks.length ∧ cs'.length = cs0.length ∧
    (∀ x ∈ cs', Bal cl ci false x ∧ Depth x hh) := by
  cases c' with
  | leaf ckvs =>
      cases r with
      | leaf rkvs =>
          simp only [borrowFromRight] at hok
          cases rkvs with
          | nil => cases hok
          | cons kv tail =>
          cases tail with
          | nil => cases hok
          | cons kv2 rrest =>
              simp only [Except.ok.injEq, Prod.mk.injEq] at hok
              obtain ⟨hks', hcs'⟩ := hok
              subst hks'; subst hcs'
              have hck : ckvs.length + 1 = (cl + 1) / 2 := hlenL rfl
              cases hcd
              cases hdr
              obtain ⟨hrlen, hrmin⟩ : (kv :: kv2 :: rrest).length ≤ cl ∧
                  (cl + 1) / 2 ≤ (kv :: kv2 :: rrest).length := by
                cases hr with
                | leaf ha hb => exact ⟨ha, hb rfl⟩
              have hrgt : (cl + 1) / 2 < (kv :: kv2 :: rrest).length := by
                simpa [canLend] using hcan
              simp only [List.length_cons] at hrlen hrmin hrgt
              refine ⟨by simp, by simp, ?_⟩
              intro x hx
              rcases mem_set_set (by omega) hilt hi1 hx with h | h | ⟨j, hja, hjb, hj⟩
              · subst h
                refine ⟨Bal.leaf (by simp; omega) (fun _ => by simp; omega), Depth.leaf _⟩
              · subst h
                refine ⟨Bal.leaf (by simp; omega) (fun _ => by simp; omega), Depth.leaf _⟩
              · exact hold j x hja hjb hj
      | internal rks rcs => simp [borrowFromRight] at hok
  | internal cks ccs =>
      cases r with
      | leaf rkvs => simp [borrowFromRight] at hok
      | internal rks rcs =>
          simp only [borrowFromRight] at hok
          cases hsep : ks[i]? with
          | none => rw [hsep] at hok; cases hok
          | some sep =>
          cases rks with
          | nil => rw [hsep] at hok; cases hok
          | cons rk rktail =>
          cases rcs with
          | nil => rw [hsep] at hok; cases hok
          | cons rc rctail =>
              rw [hsep] at hok
              simp only [Except.ok.injEq, Prod.mk.injEq] at hok
              obtain ⟨hks', hcs'⟩ := hok
              subst hks'; subst hcs'
              have hck : cks.length + 1 = ci / 2 := hlenI rfl
              obtain ⟨hcshape, hccap, hcmem⟩ :
                  ccs.length = cks.length + 1 ∧ cks.length ≤ ci ∧
                  ∀ c ∈ ccs, Bal cl ci false c := hcf
              obtain ⟨h2, hh2, hcdm⟩ := depth_internal_inv hcd
              subst hh2
              obtain ⟨h2r, hh2r, hdrm⟩ := depth_internal_inv hdr
              have hh2eq : h2r = h2 := by omega
              subst hh2eq
              have hrstats : (rc :: rctail).length = (rk :: rktail).length + 1 ∧
                  (rk :: rktail).length ≤ ci ∧ ci / 2 ≤ (rk :: rktail).length ∧
                  (∀ c ∈ rc :: rctail, Bal cl ci false c) := by
                cases hr with
                | internal ha hb hc hd2 he => exact ⟨ha, hb, hd2 rfl, he⟩
              obtain ⟨hrshape, hrcap, hrmin, hrmem⟩ := hrstats
              have hrgt : ci / 2 < (rk :: rktail).length := by
                simpa [canLend] using hcan
              simp only [List.length_cons] at hrshape hrcap hrmin hrgt
              refine ⟨by simp, by simp, ?_⟩
              intro x hx
              rcases mem_set_set (by omega) hilt hi1 hx with h | h | ⟨j, hja, hjb, hj⟩
              · subst h
                refine ⟨Bal.internal (by simp; omega) (by simp; omega) (by simp)
                  (fun _ => by simp; omega) ?_, Depth.internal ?_⟩
                · intro y hy
                  rcases List.mem_append.1 hy with h | h
                  · exact hcmem y h
                  · rcases List.mem_cons.1 h with h | h
                    · subst h
                      exact hrmem y (List.mem_cons_self _ _)
                    · cases h
                · intro y hy
                  rcases List.mem_append.1 hy with h | h
                  · exact hcdm y h
                  · rcases List.mem_cons.1 h with h | h
                    · subst h
                      exact hdrm y (List.mem_cons_self _ _)
                    · cases h
              · subst h
                refine ⟨Bal.internal (by omega) (by omega) (by omega)
                  (fun _ => by omega) ?_, Depth.internal ?_⟩
                · intro y hy
                  exact hrmem y (List.mem_cons_of_mem _ hy)
                · intro y hy
                  exact hdrm y (List.mem_cons_of_mem _ hy)
              · exact hold j x hja hjb hj

/-- What `merge_into_left` plus `delete_key_children(anchor)` produces, when
it succeeds: the parent loses `keys[i-1]` and `children[i]`, and every
remaining child slot holds a balanced non-root node of the same depth. -/
theorem mergeIntoLeft_ok {cl ci : Nat} {ks ks' : List K}
    {cs0 cs' : List (BNode K V)} {i : Nat} {l c' : BNode K V} {hh : Nat}
    (hok : mergeIntoLeft ks cs0 i l c' = .ok (ks', cs'))
    (hi0 : i ≠ 0) (hilt : i < cs0.length) (hi1 : i - 1 < cs0.length)
    (hl : Bal cl ci false l) (hdl : Depth l hh)
    (hcan : canLend ((cl + 1) / 2) (ci / 2) l = false)
    (hcf : NodeFits cl ci c') (hcd : Depth c' hh)
    (hlenL : kindOf c' = true → lenOf c' + 1 = (cl + 1) / 2)
    (hlenI : kindOf c' = false → lenOf c' + 1 = ci / 2)
    (hcl : 1 ≤ cl) (hci : 2 ≤ ci)
    (hik : i - 1 < ks.length)
    (hold : ∀ j x, j ≠ i → j ≠ i - 1 → cs0[j]? = some x →
      Bal cl ci false x ∧ Depth x hh) :
    ks'.length + 1 = ks.length ∧ cs'.length + 1 = cs0.length ∧
    (∀ x ∈ cs', Bal cl ci false x ∧ Depth x hh) := by
  cases l with
  | leaf lkvs =>
      cases c' with
      | leaf ckvs =>
          simp only [mergeIntoLeft] at hok
          simp only [Except.ok.injEq, Prod.mk.injEq] at hok
          obtain ⟨hks', hcs'⟩ := hok
          subst hks'; subst hcs'
          have hck : ckvs.length + 1 = (cl + 1) / 2 := hlenL rfl
          cases hcd
          obtain ⟨hllen, hlmin⟩ : lkvs.length ≤ cl ∧ (cl + 1) / 2 ≤ lkvs.length := by
            cases hl with
            | leaf ha hb => exact ⟨ha, hb rfl⟩
          have hlle : ¬ ((cl + 1) / 2 < lkvs.length) := by
            simpa [canLend] using hcan
          refine ⟨List.length_eraseIdx_add_one hik, ?_, ?_⟩
          · have : i < (cs0.set (i - 1) (BNode.leaf (lkvs ++ ckvs))).length := by
              simpa using hilt
            simpa using List.length_eraseIdx_add_one this
          · intro x hx
            rcases mem_set_eraseIdx hi1 (by omega) hx with h | ⟨j, hja, hjb, hj⟩
            · subst h
              refine ⟨Bal.leaf (by simp; omega) (fun _ => by simp; omega), Depth.leaf _⟩
            · exact hold j x hjb hja hj
      | internal cks ccs => simp [mergeIntoLeft] at hok
  | internal lks lcs =>
      cases c' with
      | leaf ckvs => simp [mergeIntoLeft] at hok
      | internal cks ccs =>
          simp only [mergeIntoLeft] at hok
          cases hsep : ks[i - 1]? with
          | none => rw [hsep] at hok; cases hok
          | some sep =>
              rw [hsep] at hok
              simp only [Except.ok.injEq, Prod.mk.injEq] at hok
              obtain ⟨hks', hcs'⟩ := hok
              subst hks'; subst hcs'
              have hck : cks.length + 1 = ci / 2 := hlenI rfl
              obtain ⟨hcshape, hccap, hcmem⟩ :
                  ccs.length = cks.length + 1 ∧ cks.length ≤ ci ∧
                  ∀ c ∈ ccs, Bal cl ci false c := hcf
              obtain ⟨h2, hh2, hcdm⟩ := depth_internal_inv hcd
              subst hh2
              obtain ⟨h2l, hh2l, hdlm⟩ := depth_internal_inv hdl
              have hh2eq : h2l = h2 := by omega
              subst hh2eq
              have hlstats : lcs.length = lks.length + 1 ∧ lks.length ≤ ci ∧
                  ci / 2 ≤ lks.length ∧ (∀ c ∈ lcs, Bal cl ci false c) := by
                cases hl with
                | internal ha hb hc hd2 he => exact ⟨ha, hb, hd2 rfl, he⟩
              obtain ⟨hlshape, hlcap, hlmin, hlmem⟩ := hlstats
              have hlle : ¬ (ci / 2 < lks.length) := by
                simpa [canLend] using hcan
              refine ⟨List.length_eraseIdx_add_one hik, ?_, ?_⟩
              · have : i < (cs0.set (i - 1)
                    (BNode.internal (lks ++ sep :: cks) (lcs ++ ccs))).length := by
                  simpa using hilt
                simpa using List.length_eraseIdx_add_one this
              · intro x hx
                rcases mem_set_eraseIdx hi1 (by omega) hx with h | ⟨j, hja, hjb, hj⟩
                · subst h
                  refine ⟨Bal.internal (by simp; omega) (by simp; omega) (by simp; omega)
                    (fun _ => by simp; omega) ?_, Depth.internal ?_⟩
                  · intro y hy
                    rcases List.mem_append.1 hy with h | h
                    · exact hlmem y h
                    · exact hcmem y h
                  · intro y hy
                    rcases List.mem_append.1 hy with h | h
                    · exact hdlm y h
                    · exact hcdm y h
                · exact hold j x hjb hja hj

/-- What `merge_into_self` plus `delete_key_children` produces, when it
succeeds: the parent loses `keys[i]` and `children[i+1]`. -/
theorem mergeIntoSelf_ok {cl ci : Nat} {ks ks' : List K}
    {cs0 cs' : List (BNode K V)} {i : Nat} {c' r : BNode K V} {hh : Nat}
    (hok : mergeIntoSelf ks cs0 i c' r = .ok (ks', cs'))
    (hilt : i < cs0.length) (hi1 : i + 1 < cs0.length)
    (hr : Bal cl ci false r) (hdr : Depth r hh)
    (hcan : canLend ((cl + 1) / 2) (ci / 2) r = false)
    (hcf : NodeFits cl ci c') (hcd : Depth c' hh)
    (hlenL : kindOf c' = true → lenOf c' + 1 = (cl + 1) / 2)
    (hlenI : kindOf c' = false → lenOf c' + 1 = ci / 2)
    (hcl : 1 ≤ cl) (hci : 2 ≤ ci)
    (hik : i < ks.length)
    (hold : ∀ j x, j ≠ i → j ≠ i + 1 → cs0[j]? = some x →
      Bal cl ci false x ∧ Depth x hh) :
    ks'.length + 1 = ks.length ∧ cs'.length + 1 = cs0.length ∧
    (∀ x ∈ cs', Bal cl ci false x ∧ Depth x hh) := by
  cases c' with
  | leaf ckvs =>
      cases r with
      | leaf rkvs =>
          simp only [mergeIntoSelf] at hok
          simp only [Except.ok.injEq, Prod.mk.injEq] at hok
          obtain ⟨hks', hcs'⟩ := hok
          subst hks'; subst hcs'
          have hck : ckvs.length + 1 = (cl + 1) / 2 := hlenL rfl
          cases hcd
          obtain ⟨hrlen, hrmin⟩ : rkvs.length ≤ cl ∧ (cl + 1) / 2 ≤ rkvs.length := by
            cases hr with
            | leaf ha hb => exact ⟨ha, hb rfl⟩
          have hrle : ¬ ((cl + 1) / 2 < rkvs.length) := by
            simpa [canLend] using hcan
          refine ⟨List.length_eraseIdx_add_one hik, ?_, ?_⟩
          · have : i + 1 < (cs0.set i (BNode.leaf (ckvs ++ rkvs))).length := by
              simpa using hi1
            simpa using List.length_eraseIdx_add_one this
          · intro x hx
            rcases mem_set_eraseIdx hilt (by omega) hx with h | ⟨j, hja, hjb, hj⟩
            · subst h
              refine ⟨Bal.leaf (by simp; omega) (fun _ => by simp; omega), Depth.leaf _⟩
            · exact hold j x hja hjb hj
      | internal rks rcs => simp [mergeIntoSelf] at hok
  | internal cks ccs =>
      cases r with
      | leaf rkvs => simp [mergeIntoSelf] at hok
      | internal rks rcs =>
          simp only [mergeIntoSelf] at hok
          cases hsep : ks[i]? with
          | none => rw [hsep] at hok; cases hok
          | some sep =>
              rw [hsep] at hok
              simp only [Except.ok.injEq, Prod.mk.injEq] at hok
              obtain ⟨hks', hcs'⟩ := hok
              subst hks'; subst hcs'
              have hck : cks.length + 1 = ci / 2 := hlenI rfl
              obtain ⟨hcshape, hccap, hcmem⟩ :
                  ccs.length = cks.length + 1 ∧ cks.length ≤ ci ∧
                  ∀ c ∈ ccs, Bal cl ci false c := hcf
              obtain ⟨h2, hh2, hcdm⟩ := depth_internal_inv hcd
              subst hh2
              obtain ⟨h2r, hh2r, hdrm⟩ := depth_internal_inv hdr
              have hh2eq : h2r = h2 := by omega
              subst hh2eq
              have hrstats : rcs.length = rks.length + 1 ∧ rks.length ≤ ci ∧
                  ci / 2 ≤ rks.length ∧ (∀ c ∈ rcs, Bal cl ci false c) := by
                cases hr with
                | internal ha hb hc hd2 he => exact ⟨ha, hb, hd2 rfl, he⟩
              obtain ⟨hrshape, hrcap, hrmin, hrmem⟩ := hrstats
              have hrle : ¬ (ci / 2 < rks.length) := by
                simpa [canLend] using hcan
              refine ⟨List.length_eraseIdx_add_one hik, ?_, ?_⟩
              · have : i + 1 < (cs0.set i
                    (BNode.internal (cks ++ sep :: rks) (ccs ++ rcs))).length := by
                  simpa using hi1
                simpa using List.length_eraseIdx_add_one this
              · intro x hx
                rcases mem_set_eraseIdx hilt (by omega) hx with h | ⟨j, hja, hjb, hj⟩
                · subst h
                  refine ⟨Bal.internal (by simp; omega) (by simp; omega) (by simp; omega)
                    (fun _ => by simp; omega) ?_, Depth.internal ?_⟩
                  · intro y hy
                    rcases List.mem_append.1 hy with h | h
                    · exact hcmem y h
                    · exact hrmem y h
                  · intro y hy
                    rcases List.mem_append.1 hy with h | h
                    · exact hcdm y h
                    · exact hdrm y h
                · exact hold j x hja hjb hj

/-- `Node::rebalance` dispatch: whichever of the four repairs succeeds, the
parent's shape is restored, it loses at most one key, and all its children
are balanced non-root nodes at the original depth. -/
theorem fixChild_bal {cl ci : Nat} {ks ks' : List K} {cs cs' : List (BNode K V)}
    {i : Nat} {c' : BNode K V} {hh : Nat}
    (hok : fixChild ((cl + 1) / 2) (ci / 2) ks cs i c' = .ok (ks', cs'))
    (hshape : cs.length = ks.length + 1)
    (hcs : ∀ x ∈ cs, Bal cl ci false x) (hdc : ∀ x ∈ cs, Depth x hh)
    (hilt : i < cs.length)
    (hcf : NodeFits cl ci c') (hcd : Depth c' hh)
    (hlenL : kindOf c' = true → lenOf c' + 1 = (cl + 1) / 2)
    (hlenI : kindOf c' = false → lenOf c' + 1 = ci / 2)
    (hcl : 1 ≤ cl) (hci : 2 ≤ ci) :
    cs'.length = ks'.length + 1 ∧ ks.length - 1 ≤ ks'.length ∧ ks'.length ≤ ks.length ∧
    (∀ x ∈ cs', Bal cl ci false x ∧ Depth x hh) := by
  have hold : ∀ j x, j ≠ i → (cs.set i c')[j]? = some x →
      Bal cl ci false x ∧ Depth x hh := by
    intro j x hji hj
    rw [List.getElem?_set_ne (fun h => hji h.symm)] at hj
    have hm : x ∈ cs := List.getElem?_mem hj
    exact ⟨hcs x hm, hdc x hm⟩
  have hslen : (cs.set i c').length = cs.length := by simp
  unfold fixChild at hok
  by_cases hi0 : i = 0
  · subst hi0
    rw [if_pos rfl] at hok
    cases hr1 : cs[1]? with
    | none => rw [hr1] at hok; cases hok
    | some r =>
        simp only [hr1] at hok
        have hrlt : 1 < cs.length := by
          by_contra hc
          rw [List.getElem?_eq_none (by omega)] at hr1
          cases hr1
        have hrmem : r ∈ cs := List.getElem?_mem hr1
        have hrb := hcs r hrmem
        have hrd := hdc r hrmem
        by_cases hcan : canLend ((cl + 1) / 2) (ci / 2) r = true
        · rw [if_pos hcan] at hok
          obtain ⟨h1, h2, h3⟩ := borrowFromRight_ok hok (by omega) (by omega)
            hrb hrd hcan hcf hcd hlenL hlenI hcl hci
            (fun j x hja hjb hj => hold j x hja hj)
          refine ⟨by omega, by omega, by omega, h3⟩
        · rw [if_neg hcan] at hok
          have hik : 0 < ks.length := by omega
          obtain ⟨h1, h2, h3⟩ := mergeIntoSelf_ok hok (by omega) (by omega)
            hrb hrd (by simpa using hcan) hcf hcd hlenL hlenI hcl hci (by omega)
            (fun j x hja hjb hj => hold j x hja hj)
          refine ⟨by omega, by omega, by omega, h3⟩
  · have hl? : (if i = 0 then none else cs[i - 1]?) = some (cs.get ⟨i - 1, by omega⟩) := by
      rw [if_neg hi0]
      exact List.getElem?_eq_getElem (by omega)
    rw [hl?] at hok
    have hlmem : cs.get ⟨i - 1, by omega⟩ ∈ cs := List.get_mem _ _ _
    have hlb := hcs _ hlmem
    have hld := hdc _ hlmem
    cases hr1 : cs[i + 1]? with
    | none =>
        simp only [hr1] at hok
        by_cases hcan : canLend ((cl + 1) / 2) (ci / 2) (cs.get ⟨i - 1, by omega⟩) = true
        · rw [if_pos hcan] at hok
          obtain ⟨h1, h2, h3⟩ := borrowFromLeft_ok hok hi0 (by omega) (by omega)
            hlb hld hcan hcf hcd hlenL hlenI hcl hci
            (fun j x hja hjb hj => hold j x hja hj)
          refine ⟨by omega, by omega, by omega, h3⟩
        · rw [if_neg hcan] at hok
          obtain ⟨h1, h2, h3⟩ := mergeIntoLeft_ok hok hi0 (by omega) (by omega)
            hlb hld (by simpa using hcan) hcf hcd hlenL hlenI hcl hci (by omega)
            (fun j x hja hjb hj => hold j x hja hj)
          refine ⟨by omega, by omega, by omega, h3⟩
    | some r =>
        simp only [hr1] at hok
        have hrlt : i + 1 < cs.length := by
          by_contra hc
          rw [List.getElem?_eq_none (by omega)] at hr1
          cases hr1
        have hrmem : r ∈ cs := List.getElem?_mem hr1
        have hrb := hcs r hrmem
        have hrd := hdc r hrmem
        by_cases hcan : canLend ((cl + 1) / 2) (ci / 2) (cs.get ⟨i - 1, by omega⟩) = true
        · rw [if_pos hcan] at hok
          obtain ⟨h1, h2, h3⟩ := borrowFromLeft_ok hok hi0 (by omega) (by omega)
            hlb hld hcan hcf hcd hlenL hlenI hcl hci
            (fun j x hja hjb hj => hold j x hja hj)
          refine ⟨by omega, by omega, by omega, h3⟩
        · rw [if_neg hcan] at hok
          by_cases hcan2 : canLend ((cl + 1) / 2) (ci / 2) r = true
          · rw [if_pos hcan2] at hok
            obtain ⟨h1, h2, h3⟩ := borrowFromRight_ok hok (by omega) (by omega)
              hrb hrd hcan2 hcf hcd hlenL hlenI hcl hci
              (fun j x hja hjb hj => hold j x hja hj)
            refine ⟨by omega, by omega, by omega, h3⟩
          · rw [if_neg hcan2] at hok
            obtain ⟨h1, h2, h3⟩ := mergeIntoLeft_ok hok hi0 (by omega) (by omega)
              hlb hld (by simpa using hcan) hcf hcd hlenL hlenI hcl hci (by omega)
              (fun j x hja hjb hj => hold j x hja hj)
            refine ⟨by omega, by omega, by omega, h3⟩

theorem eraseP_length_bounds {α : Type} (p : α → Bool) (l : List α) :
    l.length - 1 ≤ (l.eraseP p).length ∧ (l.eraseP p).length ≤ l.length := by
  induction l with
  | nil => simp
  | cons a t ih =>
      by_cases hpa : p a = true
      · simp [List.eraseP_cons, hpa]
      · simp only [List.eraseP_cons, hpa, Bool.false_eq_true, cond_false, List.length_cons]
        omega

/-- Delete preservation core: a successful `delNode` keeps the node's kind,
depth and fit, removing at most one entry or key. -/
theorem delNode_bal {cl ci : Nat} (hcl : 1 ≤ cl) (hci : 2 ≤ ci) (k : K) :
    ∀ t : BNode K V, ∀ h : Nat, NodeFits cl ci t → Depth t h →
      ∀ t', BTree.delNode ((cl + 1) / 2) (ci / 2) k t = .ok t' →
        NodeFits cl ci t' ∧ Depth t' h ∧ kindOf t' = kindOf t ∧
        lenOf t ≤ lenOf t' + 1 ∧ lenOf t' ≤ lenOf t := by
  intro t
  induction t using BNode.strongInduction with
  | hleaf kvs =>
      intro h hf hd t' hdel
      cases hd
      simp only [BTree.delNode, leafDelete, Except.ok.injEq] at hdel
      subst hdel
      obtain ⟨hlb, hub⟩ := eraseP_length_bounds (fun kv => kv.1 == k) kvs
      have hflen : kvs.length ≤ cl := hf
      refine ⟨by show _ ≤ cl; omega, Depth.leaf _, rfl, ?_, ?_⟩
      · show kvs.length ≤ (List.eraseP (fun kv => kv.1 == k) kvs).length + 1
        omega
      · show (List.eraseP (fun kv => kv.1 == k) kvs).length ≤ kvs.length
        omega
  | hint ks cs ih =>
      intro h hf hd t' hdel
      have hf' : cs.length = ks.length + 1 ∧ ks.length ≤ ci ∧
          ∀ c ∈ cs, Bal cl ci false c := hf
      obtain ⟨hshape, hcap, hcs⟩ := hf'
      obtain ⟨hh, rfl, hdc⟩ := depth_internal_inv hd
      have hilt : childIdx ks cs.length k < cs.length := childIdx_lt k (by omega)
      obtain ⟨c, hc⟩ : ∃ c, cs[childIdx ks cs.length k]? = some c :=
        ⟨_, List.getElem?_eq_getElem hilt⟩
      have hmem : c ∈ cs := List.getElem?_mem hc
      simp only [BTree.delNode] at hdel
      rw [delChild_eq_some hc] at hdel
      cases hrec : BTree.delNode ((cl + 1) / 2) (ci / 2) k c with
      | error e => rw [hrec] at hdel; cases hdel
      | ok c' =>
          simp only [hrec] at hdel
          have hcb := hcs c hmem
          have hcf := (fits_of_bal hcb).1
          obtain ⟨hf', hd', hk', hge, hle⟩ := ih c hmem hh hcf (hdc c hmem) c' hrec
          have hcmin := (fits_of_bal hcb).2.1 rfl
          by_cases hund : isUnderfull ((cl + 1) / 2) (ci / 2) c' = true
          · rw [if_pos hund] at hdel
            cases hfix : fixChild ((cl + 1) / 2) (ci / 2) ks cs
                (childIdx ks cs.length k) c' with
            | error e => rw [hfix] at hdel; cases hdel
            | ok p =>
                obtain ⟨ks', cs'⟩ := p
                rw [hfix] at hdel
                simp only [Except.ok.injEq] at hdel
                subst hdel
                have hlenL : kindOf c' = true → lenOf c' + 1 = (cl + 1) / 2 := by
                  intro hkind
                  have h1 : lenOf c' < (cl + 1) / 2 := by
                    cases c' with
                    | leaf kvs2 => simpa [isUnderfull, lenOf] using hund
                    | internal ks2 cs2 => cases hkind
                  have h2 : (cl + 1) / 2 ≤ lenOf c := hcmin.1 (hk' ▸ hkind)
                  omega
                have hlenI : kindOf c' = false → lenOf c' + 1 = ci / 2 := by
                  intro hkind
                  have h1 : lenOf c' < ci / 2 := by
                    cases c' with
                    | leaf kvs2 => cases hkind
                    | internal ks2 cs2 => simpa [isUnderfull, lenOf] using hund
                  have h2 : ci / 2 ≤ lenOf c := hcmin.2 (hk' ▸ hkind)
                  omega
                obtain ⟨g1, g2, g3, g4⟩ := fixChild_bal hfix hshape hcs hdc hilt
                  hf' hd' hlenL hlenI hcl hci
                refine ⟨?_, ?_, rfl, ?_, ?_⟩
                · show _ ∧ _ ∧ _
                  exact ⟨g1, by omega, fun x hx => (g4 x hx).1⟩
                · exact Depth.internal (fun x hx => (g4 x hx).2)
                · simp only [lenOf]
                  omega
                · simp only [lenOf]
                  omega
          · rw [if_neg hund] at hdel
            simp only [Except.ok.injEq] at hdel
            subst hdel
            have hbal' : Bal cl ci false c' := by
              refine bal_false_of_fits hci hf' ?_ ?_
              · intro hkind
                cases c' with
                | leaf kvs2 =>
                    simp only [isUnderfull, decide_eq_true_eq] at hund
                    simp only [lenOf]
                    omega
                | internal ks2 cs2 => cases hkind
              · intro hkind
                cases c' with
                | leaf kvs2 => cases hkind
                | internal ks2 cs2 =>
                    simp only [isUnderfull, decide_eq_true_eq] at hund
                    simp only [lenOf]
                    omega
            refine ⟨?_, ?_, rfl, by simp only [lenOf]; omega, by simp only [lenOf]; omega⟩
            · show _ ∧ _ ∧ _
              refine ⟨by simpa using hshape, hcap, ?_⟩
              intro x hx
              rcases List.mem_or_eq_of_mem_set hx with h | h
              · exact hcs x h
              · exact h ▸ hbal'
            · refine Depth.internal ?_
              intro x hx
              rcases List.mem_or_eq_of_mem_set hx with h | h
              · exact hdc x h
              · exact h ▸ hd'

/-- `BTree::delete_async` preserves balance and uniform depth (delete side of
the reachable-state invariant). -/
theorem delete_async_bal {cl ci : Nat} (hcl : 1 ≤ cl) (hci : 2 ≤ ci) {k : K}
    {t t' : BNode K V} {h : Nat} (hb : Bal cl ci true t) (hd : Depth t h)
    (hdel : BTree.delete_async ((cl + 1) / 2) (ci / 2) k t = .ok t') :
    Bal cl ci true t' ∧ ∃ h', Depth t' h' := by
  unfold BTree.delete_async at hdel
  have hf := (fits_of_bal hb).1
  cases hrec : BTree.delNode ((cl + 1) / 2) (ci / 2) k t with
  | error e => rw [hrec] at hdel; cases hdel
  | ok t2 =>
      rw [hrec] at hdel
      obtain ⟨hf2, hd2, hk2, hge, hle⟩ := delNode_bal hcl hci k t h hf hd t2 hrec
      cases t2 with
      | leaf kvs2 =>
          simp only [Except.ok.injEq] at hdel
          subst hdel
          exact ⟨Bal.leaf hf2 (fun hfalse => by cases hfalse), h, hd2⟩
      | internal ks2 cs2 =>
          obtain ⟨hshape2, hcap2, hcs2⟩ : cs2.length = ks2.length + 1 ∧
              ks2.length ≤ ci ∧ ∀ c ∈ cs2, Bal cl ci false c := hf2
          obtain ⟨hh2, rfl, hdc2⟩ := depth_internal_inv hd2
          cases ks2 with
          | nil =>
              cases h0 : cs2[0]? with
              | none => simp only [h0] at hdel; cases hdel
              | some c0 =>
                  simp only [h0, Except.ok.injEq] at hdel
                  subst hdel
                  have hm0 : c0 ∈ cs2 := List.getElem?_mem h0
                  have hb0 := hcs2 c0 hm0
                  refine ⟨bal_true_of_fits (fits_of_bal hb0).1 (fits_of_bal hb0).2.2,
                    hh2, hdc2 c0 hm0⟩
          | cons k1 ktail =>
              simp only [Except.ok.injEq] at hdel
              subst hdel
              refine ⟨Bal.internal hshape2 hcap2 (by simp) (fun hfalse => by cases hfalse)
                hcs2, hh2 + 1, Depth.internal hdc2⟩

theorem reachable_insertList {cl ci : Nat} :
    ∀ (l : List (K × V)) (t t' : BNode K V), Reachable cl ci t →
      BTree.insertList cl ci t l = .ok t' → Reachable cl ci t' := by
  intro l
  induction l with
  | nil =>
      intro t t' hr h
      simp only [BTree.insertList, Except.ok.injEq] at h
      exact h ▸ hr
  | cons kv rest ih =>
      intro t t' hr h
      simp only [BTree.insertList] at h
      cases hins : BTree.insert cl ci kv.1 kv.2 t with
      | error e => rw [hins] at h; cases h
      | ok t2 =>
          simp only [hins] at h
          exact ih t2 t' (Reachable.ins hr hins) h

/-! ### Order helpers for the search-tree invariant -/

theorem loLE_none (k : K) : loLE (none : Option K) k := by simp [loLE]

theorem loLT_none (k : K) : loLT (none : Option K) k := by simp [loLT]

theorem hiGT_none (k : K) : hiGT (none : Option K) k := by simp [hiGT]

theorem loLE_some {x k : K} : loLE (some x) k ↔ x ≤ k := by simp [loLE]

theorem loLT_some {x k : K} : loLT (some x) k ↔ x < k := by simp [loLT]

theorem hiGT_some {x k : K} : hiGT (some x) k ↔ k < x := by simp [hiGT]

theorem loLE_of_loLT {lo : Option K} {x : K} (h : loLT lo x) : loLE lo x :=
  fun l hl => le_of_lt (h l hl)

theorem loLE_mono {lo : Option K} {x y : K} (h : loLE lo x) (hxy : x ≤ y) : loLE lo y :=
  fun l hl => le_trans (h l hl) hxy

theorem loLT_mono {lo : Option K} {x y : K} (h : loLT lo x) (hxy : x ≤ y) : loLT lo y :=
  fun l hl => lt_of_lt_of_le (h l hl) hxy

theorem loLT_of_loLT_lt {lo : Option K} {x y : K} (h : loLT lo x) (hxy : x < y) : loLT lo y :=
  fun l hl => lt_trans (h l hl) hxy

theorem hiGT_mono {hi : Option K} {x y : K} (h : hiGT hi x) (hyx : y ≤ x) : hiGT hi y :=
  fun b hb => lt_of_le_of_lt hyx (h b hb)

/-! ### List helpers -/

theorem map_insertIdx_fun {α β : Type} (f : α → β) :
    ∀ (l : List α) (n : Nat) (a : α),
      (l.insertIdx n a).map f = (l.map f).insertIdx n (f a) := by
  intro l
  induction l with
  | nil => intro n a; cases n <;> simp
  | cons x xs ih =>
      intro n a
      cases n with
      | zero => simp
      | succ m => simp [ih]

theorem set_of_getElem? {α : Type} :
    ∀ (l : List α) (i : Nat) (a : α), l[i]? = some a → l.set i a = l := by
  intro l
  induction l with
  | nil => intro i a h; simp at h
  | cons x xs ih =>
      intro i a h
      cases i with
      | zero => simp at h; simp [h]
      | succ j => simp at h; simp [ih j a h]

theorem eq_of_fst_eq_of_nodup {l : List (K × V)} (h : (l.map Prod.fst).Nodup)
    {a b : K × V} (ha : a ∈ l) (hb : b ∈ l) (hf : a.1 = b.1) : a = b := by
  induction l with
  | nil => cases ha
  | cons c cs ih =>
      simp only [List.map_cons, List.nodup_cons] at h
      rcases List.mem_cons.1 ha with ha' | ha' <;>
        rcases List.mem_cons.1 hb with hb' | hb'
      · exact ha'.trans hb'.symm
      · refine absurd ?_ h.1
        rw [ha'] at hf
        rw [hf]
        exact List.mem_map_of_mem Prod.fst hb'
      · refine absurd ?_ h.1
        rw [hb'] at hf
        rw [← hf]
        exact List.mem_map_of_mem Prod.fst ha'
      · exact ih h.2 ha' hb'

/-- Strict sortedness is preserved when a fresh key is inserted at its
binary-search position `insPos`. -/
theorem chain_lt_insertIdx_insPos {k : K} :
    ∀ {ks : List K}, List.Chain' (· < ·) ks → k ∉ ks →
      List.Chain' (· < ·) (ks.insertIdx (insPos k ks) k) := by
  intro ks
  induction ks with
  | nil => intro _ _; simp [insPos]
  | cons x xs ih =>
      intro hs hk
      by_cases hx : x < k
      · rw [show insPos k (x :: xs) = insPos k xs + 1 by simp [insPos, hx],
          List.insertIdx_succ_cons]
        rw [List.chain'_cons']
        refine ⟨?_, ih hs.tail (fun h => hk (List.mem_cons_of_mem x h))⟩
        intro b hb
        cases xs with
        | nil =>
            simp [insPos] at hb
            subst hb; exact hx
        | cons y ys =>
            by_cases hy : y < k
            · simp [insPos, hy] at hb
              subst hb
              exact (List.chain'_cons.1 hs).1
            · simp [insPos, hy] at hb
              subst hb; exact hx
      · rw [show insPos k (x :: xs) = 0 by simp [insPos, hx], List.insertIdx_zero]
        rw [List.chain'_cons]
        have hne : k ≠ x := fun h => hk (by rw [h]; exact List.mem_cons_self x xs)
        exact ⟨lt_of_le_of_ne (not_lt.1 hx) hne, hs⟩

/-! ### Shape and bounds of wellformed trees -/

theorem WFChain_length {hi : Option K} :
    ∀ (ks : List K) (cs : List (BNode K V)) (lo : Option K),
      WFChain lo hi cs ks → cs.length = ks.length + 1 := by
  intro ks
  induction ks with
  | nil =>
      intro cs lo h
      match cs with
      | [] => simp [WFChain] at h
      | [c] => simp
      | c :: c' :: cs' => simp [WFChain] at h
  | cons x ks' ih =>
      intro cs lo h
      match cs with
      | [] => simp [WFChain] at h
      | c :: cs' =>
          simp only [WFChain] at h
          simpa using ih cs' (some x) h.2.2.2

theorem entriesList_append :
    ∀ (l₁ l₂ : List (BNode K V)), entriesList (l₁ ++ l₂) = entriesList l₁ ++ entriesList l₂ := by
  intro l₁ l₂
  induction l₁ with
  | nil => simp [entriesList]
  | cons c cs ih => simp [entriesList, ih]

/-- Chain version of `entries_bound`: every entry below the children of a
wellformed internal node lies inside the node's bounds. -/
theorem entriesList_bound {hi : Option K} :
    ∀ (ks : List K) (cs : List (BNode K V)) (lo : Option K),
      WFChain lo hi cs ks →
      (∀ c ∈ cs, ∀ {lo' hi' : Option K}, WF lo' hi' c →
        ∀ kv ∈ entries c, loLE lo' kv.1 ∧ hiGT hi' kv.1) →
      ∀ kv ∈ entriesList cs, loLE lo kv.1 ∧ hiGT hi kv.1 := by
  intro ks
  induction ks with
  | nil =>
      intro cs lo hch IH kv hkv
      match cs with
      | [] => simp [WFChain] at hch
      | [c] =>
          rw [WFChain] at hch
          simp [entriesList] at hkv
          exact IH c (by simp) hch kv hkv
      | c :: c' :: cs' => simp [WFChain] at hch
  | cons x ks' ih =>
      intro cs lo hch IH kv hkv
      match cs with
      | [] => simp [WFChain] at hch
      | c :: cs' =>
          rw [WFChain] at hch
          obtain ⟨hlo, hhi, hwfc, hchain⟩ := hch
          simp only [entriesList, List.mem_append] at hkv
          rcases hkv with h | h
          · have hb := IH c (by simp) hwfc kv h
            exact ⟨hb.1, hiGT_mono hhi (le_of_lt (hiGT_some.1 hb.2))⟩
          · have hb := ih cs' (some x) hchain
              (fun c' hc' => IH c' (List.mem_cons_of_mem c hc')) kv h
            exact ⟨loLE_of_loLT (loLT_mono hlo (loLE_some.1 hb.1)), hb.2⟩

/-- Every entry of a wellformed subtree lies inside the subtree's bounds. -/
theorem entries_bound :
    ∀ (t : BNode K V), ∀ {lo hi : Option K}, WF lo hi t →
      ∀ kv ∈ entries t, loLE lo kv.1 ∧ hiGT hi kv.1 := by
  refine BNode.strongInduction ?_ ?_
  · intro kvs lo hi hwf kv hkv
    rw [WF] at hwf
    exact hwf.2 kv (by simpa [entries] using hkv)
  · intro ks cs IH lo hi hwf kv hkv
    rw [WF] at hwf
    rw [entries] at hkv
    exact entriesList_bound ks cs _ hwf.2 (fun c hc => IH c hc) kv hkv

/-! ### Correctness of `search` and `lookup` on wellformed trees -/

/-- Chain-descent lemma for `search`: following `children[upper_pivot]` down a
wellformed internal node reaches the unique leaf whose interval contains `k`. -/
theorem searchChild_chain {hi : Option K} {k : K} :
    ∀ (ks : List K) (cs : List (BNode K V)) (lo : Option K),
      WFChain lo hi cs ks → loLE lo k → hiGT hi k →
      (∀ c ∈ cs, ∀ {lo' hi' : Option K}, WF lo' hi' c → loLE lo' k → hiGT hi' k →
        ∃ kvs, BTree.search k c = .ok kvs ∧
          List.Chain' (· < ·) (kvs.map Prod.fst) ∧
          (∀ kv ∈ kvs, kv ∈ entries c) ∧
          (∀ v : V, (k, v) ∈ entries c → (k, v) ∈ kvs)) →
      ∃ kvs, BTree.searchChild k (upperPivot k ks) cs = .ok kvs ∧
        List.Chain' (· < ·) (kvs.map Prod.fst) ∧
        (∀ kv ∈ kvs, kv ∈ entriesList cs) ∧
        (∀ v : V, (k, v) ∈ entriesList cs → (k, v) ∈ kvs) := by
  intro ks
  induction ks with
  | nil =>
      intro cs lo hch hlo hhi IH
      match cs with
      | [] => simp [WFChain] at hch
      | [c] =>
          rw [WFChain] at hch
          obtain ⟨kvs, hs, hchain, hsound, hcomp⟩ := IH c (by simp) hch hlo hhi
          refine ⟨kvs, ?_, hchain, ?_, ?_⟩
          · simpa [upperPivot, BTree.searchChild] using hs
          · intro kv hkv; simp only [entriesList, List.append_nil]; exact hsound kv hkv
          · intro v hv
            exact hcomp v (by simpa [entriesList] using hv)
      | c :: c' :: cs' => simp [WFChain] at hch
  | cons x ks' ih =>
      intro cs lo hch hlo hhi IH
      match cs with
      | [] => simp [WFChain] at hch
      | c :: cs' =>
          rw [WFChain] at hch
          obtain ⟨hlox, hhix, hwfc, hchain⟩ := hch
          by_cases hx : x ≤ k
          · obtain ⟨kvs, hs, hc', hsound, hcomp⟩ := ih cs' (some x) hchain
              (loLE_some.2 hx) hhi (fun c' hc' => IH c' (List.mem_cons_of_mem c hc'))
            refine ⟨kvs, ?_, hc', ?_, ?_⟩
            · rw [show upperPivot k (x :: ks') = upperPivot k ks' + 1 by
                simp [upperPivot, hx]]
              simpa [BTree.searchChild] using hs
            · intro kv hkv
              simp only [entriesList, List.mem_append]
              exact Or.inr (hsound kv hkv)
            · intro v hv
              simp only [entriesList, List.mem_append] at hv
              rcases hv with h | h
              · have hb := entries_bound c hwfc (k, v) h
                exact absurd (hiGT_some.1 hb.2) (not_lt.2 hx)
              · exact hcomp v h
          · have hkx : k < x := not_le.1 hx
            obtain ⟨kvs, hs, hc', hsound, hcomp⟩ := IH c (by simp) hwfc hlo
              (hiGT_some.2 hkx)
            refine ⟨kvs, ?_, hc', ?_, ?_⟩
            · rw [show upperPivot k (x :: ks') = 0 by simp [upperPivot, hx]]
              simpa [BTree.searchChild] using hs
            · intro kv hkv
              simp only [entriesList, List.mem_append]
              exact Or.inl (hsound kv hkv)
            · intro v hv
              simp only [entriesList, List.mem_append] at hv
              rcases hv with h | h
              · exact hcomp v h
              · have hb := entriesList_bound ks' cs' (some x) hchain
                  (fun c' _ => entries_bound c') (k, v) h
                exact absurd (loLE_some.1 hb.1) (not_le.2 hkx)

/-- `search` from a wellformed subtree whose interval contains `k` returns the
slice of the unique leaf that could hold `k`: sorted, sound and complete. -/
theorem search_spec :
    ∀ (t : BNode K V), ∀ {lo hi : Option K} {k : K}, WF lo hi t → loLE lo k → hiGT hi k →
      ∃ kvs, BTree.search k t = .ok kvs ∧
        List.Chain' (· < ·) (kvs.map Prod.fst) ∧
        (∀ kv ∈ kvs, kv ∈ entries t) ∧
        (∀ v : V, (k, v) ∈ entries t → (k, v) ∈ kvs) := by
  refine BNode.strongInduction ?_ ?_
  · intro kvs lo hi k hwf _ _
    rw [WF] at hwf
    exact ⟨kvs, by simp [BTree.search], hwf.1, by simp [entries], by simp [entries]⟩
  · intro ks cs IH lo hi k hwf hlo hhi
    rw [WF] at hwf
    have hlen := WFChain_length ks cs _ hwf.2
    obtain ⟨kvs, hs, hc, hsound, hcomp⟩ := searchChild_chain ks cs _ hwf.2 hlo hhi
      (fun c hc => IH c hc)
    refine ⟨kvs, ?_, hc, ?_, ?_⟩
    · rw [show BTree.search k (BNode.internal ks cs)
          = BTree.searchChild k (childIdx ks cs.length k) cs from by simp [BTree.search]]
      rw [childIdx_eq_upperPivot k hlen]
      exact hs
    · intro kv hkv; rw [entries]; exact hsound kv hkv
    · intro v hv; exact hcomp v (by rwa [entries] at hv)

/-- On a strictly sorted slice, `leafFind` finds exactly the stored binding. -/
theorem leafFind_spec {kvs : List (K × V)} {k : K}
    (hs : List.Chain' (· < ·) (kvs.map Prod.fst)) {v : V} :
    leafFind kvs k = some v ↔ (k, v) ∈ kvs := by
  have hnd : (kvs.map Prod.fst).Nodup :=
    ((List.chain'_iff_pairwise).1 hs).imp (fun h => ne_of_lt h)
  constructor
  · intro h
    rw [leafFind] at h
    cases hfind : kvs.find? (fun kv => kv.1 = k) with
    | none => rw [hfind] at h; cases h
    | some kv =>
        rw [hfind] at h
        simp only [Option.map_some', Option.some.injEq] at h
        have hk : kv.1 = k := by simpa using List.find?_some hfind
        have hmem : kv ∈ kvs := List.mem_of_find?_eq_some hfind
        have heq : (k, v) = kv := by
          obtain ⟨a, b⟩ := kv
          simp only at hk h
          rw [hk, h]
        exact heq ▸ hmem
  · intro h
    rw [leafFind]
    obtain ⟨kv, hfind⟩ : ∃ kv, kvs.find? (fun kv => kv.1 = k) = some kv := by
      refine Option.isSome_iff_exists.1 ?_
      rw [List.find?_isSome]
      exact ⟨(k, v), h, by simp⟩
    have hk : kv.1 = k := by simpa using List.find?_some hfind
    have hmem : kv ∈ kvs := List.mem_of_find?_eq_some hfind
    have heq : kv = (k, v) := eq_of_fst_eq_of_nodup hnd hmem h hk
    rw [hfind, heq]
    rfl

/-- Under the search-tree invariant, `lookup` answers membership in the set of
stored entries. -/
theorem lookup_iff {t : BNode K V} {k : K} (hwf : WF (none : Option K) none t) {v : V} :
    BTree.lookup k t = some v ↔ (k, v) ∈ entries t := by
  obtain ⟨kvs, hs, hc, hsound, hcomp⟩ := search_spec t hwf (loLE_none k) (hiGT_none k)
  rw [BTree.lookup]
  rw [hs]
  constructor
  · intro h
    exact hsound (k, v) ((leafFind_spec hc).1 h)
  · intro h
    exact (leafFind_spec hc).2 (hcomp v h)

theorem mem_treeKeys {t : BNode K V} {k : K} :
    k ∈ treeKeys t ↔ ∃ v : V, (k, v) ∈ entries t := by
  rw [treeKeys]
  constructor
  · intro h
    obtain ⟨kv, hm, he⟩ := List.mem_map.1 h
    refine ⟨kv.2, ?_⟩
    rwa [show (k, kv.2) = kv from by obtain ⟨a, b⟩ := kv; simp only at he; rw [he]]
  · rintro ⟨v, hv⟩
    exact List.mem_map_of_mem Prod.fst hv

theorem lookup_none_iff {t : BNode K V} {k : K} (hwf : WF (none : Option K) none t) :
    BTree.lookup k t = none ↔ k ∉ treeKeys t := by
  constructor
  · intro h hk
    obtain ⟨v, hv⟩ := mem_treeKeys.1 hk
    rw [(lookup_iff hwf).2 hv] at h
    cases h
  · intro hk
    cases hl : BTree.lookup k t with
    | none => rfl
    | some v => exact absurd (mem_treeKeys.2 ⟨v, (lookup_iff hwf).1 hl⟩) hk

/-! ### Insertion preserves the search-tree invariant -/

/-- Effect of `LeafNode::insert` on a fresh key: the result is wellformed and
holds exactly the old entries plus the new pair, for both the in-place and the
split outcome. -/
theorem leafInsert_wf (cl : Nat) {k : K} {v : V} {kvs : List (K × V)} {lo hi : Option K}
    (hwf : WF lo hi (BNode.leaf kvs)) (hlo : loLE lo k) (hhi : hiGT hi k)
    (hk : k ∉ kvs.map Prod.fst) :
    (∃ kvs', leafInsert cl k v kvs = .Ok kvs' ∧ WF lo hi (BNode.leaf kvs') ∧
        List.Perm kvs' ((k, v) :: kvs)) ∨
    (∃ sk l r, leafInsert cl k v kvs = .Split sk l r ∧
        WF lo (some sk) (BNode.leaf l) ∧ WF (some sk) hi (BNode.leaf r) ∧
        loLT lo sk ∧ hiGT hi sk ∧ List.Perm (l ++ r) ((k, v) :: kvs)) := by
  rw [WF] at hwf
  obtain ⟨hs, hb⟩ := hwf
  have hcont : ((kvs.map Prod.fst).contains k) = false := by simpa using hk
  have hpos : insPos k (kvs.map Prod.fst) ≤ kvs.length := by
    simpa using insPos_le_length k (kvs.map Prod.fst)
  have hperm : List.Perm (kvs.insertIdx (insPos k (kvs.map Prod.fst)) (k, v)) ((k, v) :: kvs) :=
    List.perm_insertIdx (k, v) kvs hpos
  have hkeys : (kvs.insertIdx (insPos k (kvs.map Prod.fst)) (k, v)).map Prod.fst
      = (kvs.map Prod.fst).insertIdx (insPos k (kvs.map Prod.fst)) k :=
    map_insertIdx_fun Prod.fst kvs (insPos k (kvs.map Prod.fst)) (k, v)
  have hsort : List.Chain' (· < ·)
      ((kvs.insertIdx (insPos k (kvs.map Prod.fst)) (k, v)).map Prod.fst) := by
    rw [hkeys]
    exact chain_lt_insertIdx_insPos hs hk
  have hbound : ∀ kv ∈ kvs.insertIdx (insPos k (kvs.map Prod.fst)) (k, v),
      loLE lo kv.1 ∧ hiGT hi kv.1 := by
    intro kv hkv
    rcases (List.mem_insertIdx hpos).1 hkv with h | h
    · rw [h]; exact ⟨hlo, hhi⟩
    · exact hb kv h
  have hwf' : WF lo hi (BNode.leaf (kvs.insertIdx (insPos k (kvs.map Prod.fst)) (k, v))) := by
    rw [WF]; exact ⟨hsort, hbound⟩
  simp only [leafInsert, hcont, Bool.false_eq_true, if_false]
  set kvs' : List (K × V) := kvs.insertIdx (insPos k (kvs.map Prod.fst)) (k, v) with hkvs'
  by_cases hlen : kvs'.length ≤ cl
  · rw [if_pos hlen]
    exact Or.inl ⟨kvs', rfl, hwf', hperm⟩
  · rw [if_neg hlen]
    rcases hdrop : kvs'.drop ((kvs'.length + 1) / 2) with _ | ⟨kv0, rest⟩
    · simp only [hdrop]
      exact Or.inl ⟨kvs', rfl, hwf', hperm⟩
    · simp only [hdrop]
      refine Or.inr ⟨kv0.1, kvs'.take ((kvs'.length + 1) / 2), kv0 :: rest, rfl, ?_⟩
      have htd : kvs'.take ((kvs'.length + 1) / 2) ++ (kv0 :: rest) = kvs' := by
        rw [← hdrop]; exact List.take_append_drop _ kvs'
      have hperm' : List.Perm (kvs'.take ((kvs'.length + 1) / 2) ++ (kv0 :: rest)) ((k, v) :: kvs) := by
        rw [htd]; exact hperm
      have hpair : List.Pairwise (· < ·) (kvs'.map Prod.fst) :=
        (List.chain'_iff_pairwise).1 hsort
      have hksplit : kvs'.map Prod.fst
          = (kvs'.take ((kvs'.length + 1) / 2)).map Prod.fst
            ++ (kv0 :: rest).map Prod.fst := by
        rw [← List.map_append, htd]
      rw [hksplit] at hpair
      have hcross := (List.pairwise_append.1 hpair).2.2
      have hpairL := (List.pairwise_append.1 hpair).1
      have hpairR := (List.pairwise_append.1 hpair).2.1
      have hsk_memR : kv0.1 ∈ (kv0 :: rest).map Prod.fst := by simp
      have hL_lt_sk : ∀ kv ∈ kvs'.take ((kvs'.length + 1) / 2), kv.1 < kv0.1 := by
        intro kv hkv
        exact hcross kv.1 (List.mem_map_of_mem Prod.fst hkv) kv0.1 hsk_memR
      have hL_mem : ∀ kv ∈ kvs'.take ((kvs'.length + 1) / 2), kv ∈ kvs' := by
        intro kv hkv; exact List.mem_of_mem_take hkv
      have hR_mem : ∀ kv ∈ kv0 :: rest, kv ∈ kvs' := by
        intro kv hkv; rw [← hdrop] at hkv; exact List.mem_of_mem_drop hkv
      have hsk_ge : ∀ kv ∈ kv0 :: rest, kv0.1 ≤ kv.1 := by
        intro kv hkv
        rcases List.mem_cons.1 hkv with h | h
        · rw [h]
        · exact le_of_lt ((List.pairwise_cons.1 hpairR).1 kv.1
            (List.mem_map_of_mem Prod.fst h))
      have hLne : kvs'.take ((kvs'.length + 1) / 2) ≠ [] := by
        have h1 : 1 ≤ kvs'.length := by
          have := hperm.length_eq
          simp at this
          omega
        have : (kvs'.take ((kvs'.length + 1) / 2)).length = min ((kvs'.length + 1) / 2) kvs'.length := by
          simp
        intro hnil
        rw [hnil] at this
        simp at this
        omega
      refine ⟨?_, ?_, ?_, ?_, hperm'⟩
      · -- left half wellformed below the split key
        rw [WF]
        constructor
        · exact (List.chain'_iff_pairwise).2 hpairL
        · intro kv hkv
          exact ⟨(hbound kv (hL_mem kv hkv)).1, hiGT_some.2 (hL_lt_sk kv hkv)⟩
      · -- right half wellformed above the split key
        rw [WF]
        constructor
        · exact (List.chain'_iff_pairwise).2 hpairR
        · intro kv hkv
          exact ⟨loLE_some.2 (hsk_ge kv hkv), (hbound kv (hR_mem kv hkv)).2⟩
      · -- the split key is strictly above the lower bound
        obtain ⟨a, ha⟩ := List.exists_mem_of_ne_nil _ hLne
        intro l0 hl0
        exact lt_of_le_of_lt ((hbound a (hL_mem a ha)).1 l0 hl0) (hL_lt_sk a ha)
      · exact (hbound kv0 (hR_mem kv0 (by simp))).2

/-- Splitting a wellformed children/keys chain at key position `m` (child
position `m + 1`) yields two wellformed chains around the promoted key. -/
theorem WFChain_split {hi : Option K} :
    ∀ (ks : List K) (cs : List (BNode K V)) (lo : Option K) (m : Nat) {pk : K} {rks : List K},
      WFChain lo hi cs ks → ks.drop m = pk :: rks → 1 ≤ m →
      WFChain lo (some pk) (cs.take (m + 1)) (ks.take m) ∧
      WFChain (some pk) hi (cs.drop (m + 1)) rks ∧
      loLT lo pk ∧ hiGT hi pk := by
  intro ks
  induction ks with
  | nil =>
      intro cs lo m pk rks hch hdrop _
      simp at hdrop
  | cons x ks' ih =>
      intro cs lo m pk rks hch hdrop hm
      match cs with
      | [] => simp [WFChain] at hch
      | c :: cs' =>
          rw [WFChain] at hch
          obtain ⟨hlox, hhix, hwfc, hchain⟩ := hch
          obtain ⟨m', rfl⟩ : ∃ m', m = m' + 1 := ⟨m - 1, by omega⟩
          rw [List.drop_succ_cons] at hdrop
          cases m' with
          | zero =>
              rw [List.drop_zero] at hdrop
              subst hdrop
              match cs' with
              | [] => simp [WFChain] at hchain
              | c2 :: cs'' =>
                  rw [WFChain] at hchain
                  obtain ⟨hxpk, hhipk, hwfc2, hchain'⟩ := hchain
                  refine ⟨?_, ?_, loLT_of_loLT_lt hlox (loLT_some.1 hxpk), hhipk⟩
                  · simp only [List.take_succ_cons, List.take_zero]
                    rw [WFChain]
                    refine ⟨hlox, hiGT_some.2 (loLT_some.1 hxpk), hwfc, ?_⟩
                    rw [WFChain]
                    exact hwfc2
                  · simpa using hchain'
          | succ m'' =>
              obtain ⟨hL, hR, hlopk, hhipk⟩ :=
                ih cs' (some x) (m'' + 1) hchain hdrop (by omega)
              refine ⟨?_, ?_, loLT_of_loLT_lt hlox (loLT_some.1 hlopk), hhipk⟩
              · simp only [List.take_succ_cons]
                rw [WFChain]
                exact ⟨hlox, hiGT_some.2 (loLT_some.1 hlopk), hwfc, hL⟩
              · simpa using hR

/-- Chain-descent lemma for `insert`: inserting a fresh key through
`children[upper_pivot]` of a wellformed internal node either rewrites that
child in place or hands back a split; in both cases the parent's surgery at
`insPos` of the promoted key — which coincides with `upper_pivot` of `k` —
yields a wellformed chain holding exactly the old entries plus the new pair. -/
theorem insChild_chain (cl ci : Nat) (k : K) (v : V) {hi : Option K} :
    ∀ (ks : List K) (cs : List (BNode K V)) (lo : Option K),
      WFChain lo hi cs ks → loLE lo k → hiGT hi k →
      (∀ c ∈ cs, ∀ {lo' hi' : Option K}, WF lo' hi' c → loLE lo' k → hiGT hi' k →
        (k ∈ (entries c).map Prod.fst →
          BTree.insNode cl ci k v c = .error .DuplicatedKey) ∧
        (k ∉ (entries c).map Prod.fst →
          ∃ res, BTree.insNode cl ci k v c = .ok res ∧
            ((∃ t', res = .done t' ∧ WF lo' hi' t' ∧
                List.Perm (entries t') ((k, v) :: entries c)) ∨
             (∃ l sk r, res = .split l sk r ∧
                WF lo' (some sk) l ∧ WF (some sk) hi' r ∧
                loLT lo' sk ∧ hiGT hi' sk ∧
                List.Perm (entries l ++ entries r) ((k, v) :: entries c))))) →
      (k ∈ (entriesList cs).map Prod.fst →
        BTree.insChild cl ci k v (upperPivot k ks) cs = .error .DuplicatedKey) ∧
      (k ∉ (entriesList cs).map Prod.fst →
        (∃ c', BTree.insChild cl ci k v (upperPivot k ks) cs = .ok (.done c') ∧
            WFChain lo hi (cs.set (upperPivot k ks) c') ks ∧
            List.Perm (entriesList (cs.set (upperPivot k ks) c'))
              ((k, v) :: entriesList cs)) ∨
        (∃ l sk r, BTree.insChild cl ci k v (upperPivot k ks) cs = .ok (.split l sk r) ∧
            insPos sk ks = upperPivot k ks ∧
            WFChain lo hi ((cs.set (upperPivot k ks) l).insertIdx (upperPivot k ks + 1) r)
              (ks.insertIdx (upperPivot k ks) sk) ∧
            List.Perm
              (entriesList ((cs.set (upperPivot k ks) l).insertIdx (upperPivot k ks + 1) r))
              ((k, v) :: entriesList cs) ∧
            loLT lo sk ∧ hiGT hi sk)) := by
  intro ks
  induction ks with
  | nil =>
      intro cs lo hch hlo hhi IH
      match cs with
      | [] => simp [WFChain] at hch
      | [c] =>
          rw [WFChain] at hch
          have hIH := IH c (by simp) hch hlo hhi
          constructor
          · intro hk
            have hk' : k ∈ (entries c).map Prod.fst := by simpa [entriesList] using hk
            simpa [upperPivot, BTree.insChild] using hIH.1 hk'
          · intro hk
            have hk' : k ∉ (entries c).map Prod.fst := by simpa [entriesList] using hk
            obtain ⟨res, hres, hcase⟩ := hIH.2 hk'
            rcases hcase with ⟨t', rfl, hwf', hperm⟩ |
              ⟨l, sk, r, rfl, hwl, hwr, hlt, hgt, hperm⟩
            · refine Or.inl ⟨t', ?_, ?_, ?_⟩
              · simpa [upperPivot, BTree.insChild] using hres
              · simpa [upperPivot, WFChain] using hwf'
              · simpa [upperPivot, entriesList] using hperm
            · refine Or.inr ⟨l, sk, r, ?_, ?_, ?_, ?_, hlt, hgt⟩
              · simpa [upperPivot, BTree.insChild] using hres
              · simp [insPos, upperPivot]
              · simp only [upperPivot, List.set_cons_zero, List.insertIdx_succ_cons,
                  List.insertIdx_zero]
                rw [WFChain]
                refine ⟨hlt, hgt, hwl, ?_⟩
                rw [WFChain]
                exact hwr
              · simpa [upperPivot, entriesList] using hperm
      | c :: c' :: cs' => simp [WFChain] at hch
  | cons x ks' ih =>
      intro cs lo hch hlo hhi IH
      match cs with
      | [] => simp [WFChain] at hch
      | c :: cs' =>
          rw [WFChain] at hch
          obtain ⟨hlox, hhix, hwfc, hchain⟩ := hch
          by_cases hx : x ≤ k
          · -- descend right of the pivot `x`
            have hup : upperPivot k (x :: ks') = upperPivot k ks' + 1 := by
              simp [upperPivot, hx]
            have hIHtail := ih cs' (some x) hchain (loLE_some.2 hx) hhi
              (fun c' hc' => IH c' (List.mem_cons_of_mem c hc'))
            have hnotc : k ∉ (entries c).map Prod.fst := by
              intro hkc
              obtain ⟨kv, hkvm, hkve⟩ := List.mem_map.1 hkc
              have hb := entries_bound c hwfc kv hkvm
              have hlt' : kv.1 < x := hiGT_some.1 hb.2
              rw [hkve] at hlt'
              exact absurd hlt' (not_lt.2 hx)
            have hmemiff : (k ∈ (entriesList (c :: cs')).map Prod.fst)
                ↔ k ∈ (entriesList cs').map Prod.fst := by
              simp only [entriesList, List.map_append, List.mem_append]
              exact ⟨fun h => h.resolve_left hnotc, fun h => Or.inr h⟩
            constructor
            · intro hk
              rw [hup]
              simpa [BTree.insChild] using hIHtail.1 (hmemiff.1 hk)
            · intro hk
              rcases hIHtail.2 (fun h => hk (hmemiff.2 h)) with
                ⟨c'', heq, hchain', hperm⟩ |
                ⟨l, sk, r, heq, hpos, hchain', hperm, hlt, hgt⟩
              · refine Or.inl ⟨c'', ?_, ?_, ?_⟩
                · rw [hup]; simpa [BTree.insChild] using heq
                · rw [hup, List.set_cons_succ, WFChain]
                  exact ⟨hlox, hhix, hwfc, hchain'⟩
                · rw [hup, List.set_cons_succ]
                  simp only [entriesList]
                  exact (List.Perm.append_left _ hperm).trans List.perm_middle
              · have hxsk : x < sk := loLT_some.1 hlt
                refine Or.inr ⟨l, sk, r, ?_, ?_, ?_, ?_, ?_, hgt⟩
                · rw [hup]; simpa [BTree.insChild] using heq
                · simp [hup, insPos, hxsk, hpos]
                · rw [hup]
                  simp only [List.set_cons_succ, List.insertIdx_succ_cons]
                  rw [WFChain]
                  exact ⟨hlox, hhix, hwfc, hchain'⟩
                · rw [hup]
                  simp only [List.set_cons_succ, List.insertIdx_succ_cons, entriesList]
                  exact (List.Perm.append_left _ hperm).trans List.perm_middle
                · exact loLT_of_loLT_lt hlox hxsk
          · -- stop at child 0
            have hkx : k < x := not_le.1 hx
            have hup : upperPivot k (x :: ks') = 0 := by simp [upperPivot, hx]
            have hIHc := IH c (by simp) hwfc hlo (hiGT_some.2 hkx)
            have hnottail : k ∉ (entriesList cs').map Prod.fst := by
              intro hkc
              obtain ⟨kv, hkvm, hkve⟩ := List.mem_map.1 hkc
              have hb := entriesList_bound ks' cs' (some x) hchain
                (fun c' _ => entries_bound c') kv hkvm
              have hle : x ≤ kv.1 := loLE_some.1 hb.1
              rw [hkve] at hle
              exact absurd hle (not_le.2 hkx)
            have hmemiff : (k ∈ (entriesList (c :: cs')).map Prod.fst)
                ↔ k ∈ (entries c).map Prod.fst := by
              simp only [entriesList, List.map_append, List.mem_append]
              exact ⟨fun h => h.resolve_right hnottail, fun h => Or.inl h⟩
            constructor
            · intro hk
              rw [hup]
              simpa [BTree.insChild] using hIHc.1 (hmemiff.1 hk)
            · intro hk
              obtain ⟨res, hres, hcase⟩ := hIHc.2 (fun h => hk (hmemiff.2 h))
              rcases hcase with ⟨t', rfl, hwf', hperm⟩ |
                ⟨l, sk, r, rfl, hwl, hwr, hlt, hgt, hperm⟩
              · refine Or.inl ⟨t', ?_, ?_, ?_⟩
                · rw [hup]; simpa [BTree.insChild] using hres
                · rw [hup, List.set_cons_zero, WFChain]
                  exact ⟨hlox, hhix, hwf', hchain⟩
                · rw [hup, List.set_cons_zero]
                  simp only [entriesList]
                  exact hperm.append_right _
              · have hskx : sk < x := hiGT_some.1 hgt
                refine Or.inr ⟨l, sk, r, ?_, ?_, ?_, ?_, hlt, ?_⟩
                · rw [hup]; simpa [BTree.insChild] using hres
                · simp [hup, insPos, not_lt.2 (le_of_lt hskx)]
                · rw [hup]
                  simp only [List.set_cons_zero, List.insertIdx_succ_cons,
                    List.insertIdx_zero]
                  rw [WFChain]
                  refine ⟨hlt, hiGT_mono hhix (le_of_lt hskx), hwl, ?_⟩
                  rw [WFChain]
                  exact ⟨loLT_some.2 hskx, hhix, hwr, hchain⟩
                · rw [hup]
                  simp only [List.set_cons_zero, List.insertIdx_succ_cons,
                    List.insertIdx_zero, entriesList]
                  have h1 := hperm.append_right (entriesList cs')
                  simpa [List.append_assoc] using h1
                · exact hiGT_mono hhix (le_of_lt hskx)

/-- `BTree::insert`'s recursive core on a wellformed subtree: a present key is
reported as `DuplicatedKey`; a fresh key is inserted, preserving wellformedness
and adding exactly one entry — possibly as a pending split whose halves are
wellformed around the promoted key. -/
theorem insNode_wf (cl ci : Nat) (hci : 2 ≤ ci) (k : K) (v : V) :
    ∀ (t : BNode K V), ∀ {lo hi : Option K}, WF lo hi t → loLE lo k → hiGT hi k →
      (k ∈ (entries t).map Prod.fst →
        BTree.insNode cl ci k v t = .error .DuplicatedKey) ∧
      (k ∉ (entries t).map Prod.fst →
        ∃ res, BTree.insNode cl ci k v t = .ok res ∧
          ((∃ t', res = .done t' ∧ WF lo hi t' ∧
              List.Perm (entries t') ((k, v) :: entries t)) ∨
           (∃ l sk r, res = .split l sk r ∧
              WF lo (some sk) l ∧ WF (some sk) hi r ∧
              loLT lo sk ∧ hiGT hi sk ∧
              List.Perm (entries l ++ entries r) ((k, v) :: entries t)))) := by
  refine BNode.strongInduction ?_ ?_
  · intro kvs lo hi hwf hlo hhi
    constructor
    · intro hk
      have hk' : ((kvs.map Prod.fst).contains k) = true := by simpa [entries] using hk
      have hli : leafInsert cl k v kvs = (.DuplicatedKey : LeafInsertStatus K V) := by
        rw [leafInsert, if_pos hk']
      simp [BTree.insNode, hli]
    · intro hk
      have hk' : k ∉ kvs.map Prod.fst := by simpa [entries] using hk
      rcases leafInsert_wf cl (v := v) hwf hlo hhi hk' with
        ⟨kvs', hres, hwf', hperm⟩ | ⟨sk, l, r, hres, hwl, hwr, hlt, hgt, hperm⟩
      · exact ⟨.done (.leaf kvs'), by simp [BTree.insNode, hres],
          Or.inl ⟨_, rfl, hwf', by simpa [entries] using hperm⟩⟩
      · exact ⟨.split (.leaf l) sk (.leaf r), by simp [BTree.insNode, hres],
          Or.inr ⟨_, _, _, rfl, hwl, hwr, hlt, hgt, by simpa [entries] using hperm⟩⟩
  · intro ks cs IH lo hi hwf hlo hhi
    rw [WF] at hwf
    obtain ⟨hne, hch⟩ := hwf
    have hlen := WFChain_length ks cs _ hch
    have hidx : childIdx ks cs.length k = upperPivot k ks := childIdx_eq_upperPivot k hlen
    have hchain := insChild_chain cl ci k v ks cs _ hch hlo hhi (fun c hc => IH c hc)
    constructor
    · intro hk
      have herr := hchain.1 (by simpa [entries] using hk)
      simp [BTree.insNode, hidx, herr]
    · intro hk
      rcases hchain.2 (by simpa [entries] using hk) with
        ⟨c', heq, hch', hperm⟩ | ⟨l, sk, r, heq, hpos, hch', hperm, hlt, hgt⟩
      · exact ⟨.done (.internal ks (cs.set (upperPivot k ks) c')),
          by simp [BTree.insNode, hidx, heq],
          Or.inl ⟨_, rfl, by rw [WF]; exact ⟨hne, hch'⟩, by simpa [entries] using hperm⟩⟩
      · have hup_le : upperPivot k ks ≤ ks.length := upperPivot_le_length k ks
        have hkeylen : (ks.insertIdx (upperPivot k ks) sk).length = ks.length + 1 :=
          List.length_insertIdx _ _ hup_le
        by_cases hcap : (ks.insertIdx (upperPivot k ks) sk).length ≤ ci
        · refine ⟨.done (.internal (ks.insertIdx (upperPivot k ks) sk)
              ((cs.set (upperPivot k ks) l).insertIdx (upperPivot k ks + 1) r)),
            ?_, Or.inl ⟨_, rfl, ?_, by simpa [entries] using hperm⟩⟩
          · simp [BTree.insNode, hidx, heq, internalInsert, hpos, hcap]
          · rw [WF]
            exact ⟨List.length_pos.1 (by omega), hch'⟩
        · rcases hdrop : (ks.insertIdx (upperPivot k ks) sk).drop
              ((ks.insertIdx (upperPivot k ks) sk).length / 2) with _ | ⟨pk, rks⟩
          · exfalso
            have hdl := congrArg List.length hdrop
            rw [List.length_drop] at hdl
            simp at hdl
            omega
          · have hm1 : 1 ≤ (ks.insertIdx (upperPivot k ks) sk).length / 2 := by omega
            obtain ⟨hchL, hchR, hlopk, hhipk⟩ := WFChain_split _ _ _ _ hch' hdrop hm1
            have hrkslen := congrArg List.length hdrop
            rw [List.length_drop] at hrkslen
            simp only [List.length_cons] at hrkslen
            refine ⟨.split
              (.internal ((ks.insertIdx (upperPivot k ks) sk).take
                  ((ks.insertIdx (upperPivot k ks) sk).length / 2))
                (((cs.set (upperPivot k ks) l).insertIdx (upperPivot k ks + 1) r).take
                  ((ks.insertIdx (upperPivot k ks) sk).length / 2 + 1)))
              pk
              (.internal rks
                (((cs.set (upperPivot k ks) l).insertIdx (upperPivot k ks + 1) r).drop
                  ((ks.insertIdx (upperPivot k ks) sk).length / 2 + 1))),
              ?_, Or.inr ⟨_, _, _, rfl, ?_, ?_, hlopk, hhipk, ?_⟩⟩
            · simp [BTree.insNode, hidx, heq, internalInsert, hpos, hcap, hdrop]
            · rw [WF]
              refine ⟨List.length_pos.1 ?_, hchL⟩
              rw [List.length_take]
              omega
            · rw [WF]
              exact ⟨List.length_pos.1 (by omega), hchR⟩
            · simp only [entries]
              rw [← entriesList_append, List.take_append_drop]
              exact hperm

/-- `BTree::insert` on a wellformed root: a duplicate key errors, a fresh key
succeeds, preserving wellformedness and adding exactly the new pair (a root
split is absorbed by `create_internal_node`). -/
theorem insert_wf (cl ci : Nat) (hci : 2 ≤ ci) {k : K} {v : V} {t : BNode K V}
    (hwf : WF (none : Option K) none t) :
    (k ∈ treeKeys t → BTree.insert cl ci k v t = .error .DuplicatedKey) ∧
    (k ∉ treeKeys t → ∃ t', BTree.insert cl ci k v t = .ok t' ∧
      WF (none : Option K) none t' ∧
      List.Perm (entries t') ((k, v) :: entries t)) := by
  have h := insNode_wf cl ci hci k v t hwf (loLE_none k) (hiGT_none k)
  constructor
  · intro hk
    have herr := h.1 (by simpa [treeKeys] using hk)
    simp [BTree.insert, herr]
  · intro hk
    obtain ⟨res, hres, hcase⟩ := h.2 (by simpa [treeKeys] using hk)
    rcases hcase with ⟨t', rfl, hwf', hperm⟩ | ⟨l, sk, r, rfl, hwl, hwr, hlt, hgt, hperm⟩
    · exact ⟨t', by simp [BTree.insert, hres], hwf', hperm⟩
    · refine ⟨.internal [sk] [l, r], by simp [BTree.insert, hres], ?_, ?_⟩
      · rw [WF]
        refine ⟨by simp, ?_⟩
        rw [WFChain]
        refine ⟨hlt, hgt, hwl, ?_⟩
        rw [WFChain]
        exact hwr
      · simpa [entries, entriesList] using hperm

/-- The `insert_many` loop on fresh, pairwise-distinct keys: every insert
succeeds and the final tree is wellformed, holding exactly the batch plus the
old entries. -/
theorem insertList_wf (cl ci : Nat) (hci : 2 ≤ ci) :
    ∀ (l : List (K × V)) (t : BNode K V), WF (none : Option K) none t →
      (∀ k ∈ l.map Prod.fst, k ∉ treeKeys t) → (l.map Prod.fst).Nodup →
      ∃ t', BTree.insertList cl ci t l = .ok t' ∧
        WF (none : Option K) none t' ∧ List.Perm (entries t') (l ++ entries t) := by
  intro l
  induction l with
  | nil =>
      intro t hwf _ _
      exact ⟨t, by rw [BTree.insertList], hwf, List.Perm.refl _⟩
  | cons kv rest ih =>
      intro t hwf hfresh hnd
      have hk0 : kv.1 ∉ treeKeys t := hfresh kv.1 (by simp)
      obtain ⟨t1, hins, hwf1, hperm1⟩ := (insert_wf cl ci hci hwf).2 hk0
      rw [List.map_cons, List.nodup_cons] at hnd
      have hfresh1 : ∀ k ∈ rest.map Prod.fst, k ∉ treeKeys t1 := by
        intro k hkm hkt
        have hkeys : List.Perm (treeKeys t1) (kv.1 :: treeKeys t) := by
          simpa [treeKeys] using hperm1.map Prod.fst
        rcases List.mem_cons.1 (hkeys.mem_iff.1 hkt) with h | h
        · exact hnd.1 (h ▸ hkm)
        · exact hfresh k (List.mem_cons_of_mem _ hkm) h
      obtain ⟨t', hok, hwf', hperm'⟩ := ih t1 hwf1 hfresh1 hnd.2
      refine ⟨t', ?_, hwf', ?_⟩
      · rw [BTree.insertList, hins]
        exact hok
      · have h2 : List.Perm (rest ++ entries t1) (rest ++ ((kv.1, kv.2) :: entries t)) :=
          List.Perm.append_left rest hperm1
        exact hperm'.trans (h2.trans List.perm_middle)

/-- The `insert_many` loop fails whenever some pair of the batch collides with
a key already present in the tree it started from. -/
theorem insertList_fails (cl ci : Nat) (hci : 2 ≤ ci) :
    ∀ (l : List (K × V)) (t : BNode K V), WF (none : Option K) none t →
      (∃ kv ∈ l, kv.1 ∈ treeKeys t) →
      ∃ e, BTree.insertList cl ci t l = .error e := by
  intro l
  induction l with
  | nil =>
      intro t _ h
      simp at h
  | cons kv0 rest ih =>
      intro t hwf hex
      obtain ⟨kv, hkvm, hkpres⟩ := hex
      cases hins : BTree.insert cl ci kv0.1 kv0.2 t with
      | error e =>
          refine ⟨e, ?_⟩
          rw [BTree.insertList]
          simp only [hins]
      | ok t1 =>
          by_cases hk0 : kv0.1 ∈ treeKeys t
          · rw [(insert_wf cl ci hci hwf).1 hk0] at hins
            cases hins
          · obtain ⟨t1', hins', hwf1, hperm1⟩ := (insert_wf cl ci hci hwf).2 hk0
            rw [hins] at hins'
            injection hins' with ht1
            subst ht1
            rcases List.mem_cons.1 hkvm with rfl | hkvrest
            · exact absurd hkpres hk0
            · have hkpres1 : kv.1 ∈ treeKeys t1 := by
                have hkeys : List.Perm (treeKeys t1) (kv0.1 :: treeKeys t) := by
                  simpa [treeKeys] using hperm1.map Prod.fst
                exact hkeys.mem_iff.2 (List.mem_cons_of_mem _ hkpres)
              obtain ⟨e, he⟩ := ih t1 hwf1 ⟨kv, hkvrest, hkpres1⟩
              refine ⟨e, ?_⟩
              rw [BTree.insertList]
              simp only [hins, he]

/-! ### Deleting an absent key is a no-op -/

/-- A balanced non-root node is not underfull at the thresholds
`⌈capLeaf/2⌉`, `⌊capInt/2⌋`. -/
theorem bal_not_underfull {cl ci : Nat} {c : BNode K V} (h : Bal cl ci false c) :
    isUnderfull ((cl + 1) / 2) (ci / 2) c = false := by
  cases h with
  | leaf hlen hmin =>
      have := hmin rfl
      simp [isUnderfull]
      omega
  | internal hshape hcap hone hmin hcs =>
      have := hmin rfl
      simp [isUnderfull]
      omega

/-- Chain-descent lemma for deletion of an absent key: the visited child is
returned unchanged and, being balanced, is not underfull. -/
theorem delChild_chain_noop {cl ci : Nat} (k : K) {hi : Option K} :
    ∀ (ks : List K) (cs : List (BNode K V)) (lo : Option K),
      WFChain lo hi cs ks → loLE lo k → hiGT hi k →
      (∀ c ∈ cs, Bal cl ci false c) →
      (∀ c ∈ cs, ∀ {lo' hi' : Option K} {b : Bool}, WF lo' hi' c → Bal cl ci b c →
        loLE lo' k → hiGT hi' k → k ∉ (entries c).map Prod.fst →
        BTree.delNode ((cl + 1) / 2) (ci / 2) k c = .ok c) →
      k ∉ (entriesList cs).map Prod.fst →
      ∃ c, cs[upperPivot k ks]? = some c ∧
        BTree.delChild ((cl + 1) / 2) (ci / 2) k (upperPivot k ks) cs = .ok c ∧
        isUnderfull ((cl + 1) / 2) (ci / 2) c = false := by
  intro ks
  induction ks with
  | nil =>
      intro cs lo hch hlo hhi hbal IH hk
      match cs with
      | [] => simp [WFChain] at hch
      | [c] =>
          rw [WFChain] at hch
          have hkc : k ∉ (entries c).map Prod.fst := by simpa [entriesList] using hk
          refine ⟨c, by simp [upperPivot], ?_, bal_not_underfull (hbal c (by simp))⟩
          have hd := IH c (by simp) (b := false) hch (hbal c (by simp)) hlo hhi hkc
          simpa [upperPivot, BTree.delChild] using hd
      | c :: c' :: cs' => simp [WFChain] at hch
  | cons x ks' ih =>
      intro cs lo hch hlo hhi hbal IH hk
      match cs with
      | [] => simp [WFChain] at hch
      | c :: cs' =>
          rw [WFChain] at hch
          obtain ⟨hlox, hhix, hwfc, hchain⟩ := hch
          simp only [entriesList, List.map_append, List.mem_append, not_or] at hk
          by_cases hx : x ≤ k
          · have hup : upperPivot k (x :: ks') = upperPivot k ks' + 1 := by
              simp [upperPivot, hx]
            obtain ⟨c0, hgc, hdel, hunder⟩ := ih cs' (some x) hchain (loLE_some.2 hx) hhi
              (fun c' hc' => hbal c' (List.mem_cons_of_mem c hc'))
              (fun c' hc' => IH c' (List.mem_cons_of_mem c hc')) hk.2
            refine ⟨c0, ?_, ?_, hunder⟩
            · rw [hup]; simpa using hgc
            · rw [hup]; simpa [BTree.delChild] using hdel
          · have hkx : k < x := not_le.1 hx
            have hup : upperPivot k (x :: ks') = 0 := by simp [upperPivot, hx]
            have hd := IH c (by simp) (b := false) hwfc (hbal c (by simp)) hlo
              (hiGT_some.2 hkx) hk.1
            refine ⟨c, by simp [hup], ?_, bal_not_underfull (hbal c (by simp))⟩
            rw [hup]
            simpa [BTree.delChild] using hd

/-- The recursive delete of a key absent from a wellformed, balanced subtree
returns the subtree unchanged: the leaf reached does not contain the key, so
`LeafNode::delete` removes nothing and no rebalancing is triggered. -/
theorem delNode_noop {cl ci : Nat} :
    ∀ (t : BNode K V), ∀ {lo hi : Option K} {b : Bool} {k : K},
      WF lo hi t → Bal cl ci b t → loLE lo k → hiGT hi k →
      k ∉ (entries t).map Prod.fst →
      BTree.delNode ((cl + 1) / 2) (ci / 2) k t = .ok t := by
  refine BNode.strongInduction ?_ ?_
  · intro kvs lo hi b k _ _ _ _ hk
    have hk2 : k ∉ kvs.map Prod.fst := by simpa [entries] using hk
    have hk' : ∀ kv ∈ kvs, ¬ ((kv.1 == k) = true) := by
      intro kv hkv hbe
      have hkeq : kv.1 = k := by simpa using hbe
      exact hk2 (hkeq ▸ List.mem_map_of_mem Prod.fst hkv)
    simp [BTree.delNode, leafDelete, List.eraseP_of_forall_not hk']
  · intro ks cs IH lo hi b k hwf hbal hlo hhi hk
    rw [WF] at hwf
    obtain ⟨hne, hch⟩ := hwf
    have hlen := WFChain_length ks cs _ hch
    have hcs : ∀ c ∈ cs, Bal cl ci false c := by
      cases hbal with
      | internal hshape hcap hone hmin hc => exact hc
    have hidx : childIdx ks cs.length k = upperPivot k ks := childIdx_eq_upperPivot k hlen
    obtain ⟨c, hgc, hdel, hunder⟩ := delChild_chain_noop k ks cs _ hch hlo hhi hcs
      (fun c hc => IH c hc) (by simpa [entries] using hk)
    have hset : cs.set (upperPivot k ks) c = cs := set_of_getElem? cs _ c hgc
    simp [BTree.delNode, hidx, hdel, hunder, hset]

/-- `delete_async` of an absent key returns the tree unchanged (a leaf root is
returned as is; an internal root keeps its keys, so no promotion occurs). -/
theorem delete_async_noop {cl ci : Nat} {t : BNode K V} {k : K} {b : Bool}
    (hwf : WF (none : Option K) none t) (hbal : Bal cl ci b t)
    (hk : k ∉ treeKeys t) :
    BTree.delete_async ((cl + 1) / 2) (ci / 2) k t = .ok t := by
  have hdel := delNode_noop t hwf hbal (loLE_none k) (hiGT_none k)
    (by simpa [treeKeys] using hk)
  cases t with
  | leaf kvs => simp [BTree.delete_async, hdel]
  | internal ks cs =>
      rw [WF] at hwf
      obtain ⟨hne, -⟩ := hwf
      match ks, hne with
      | k0 :: ks', _ => simp [BTree.delete_async, hdel]

section Claims

variable (capLeaf capInt minLeaf minInt : Nat)

/-- C2 (code bug, flagged in spec §9): on the tree holding keys 1 and 3,
`range(2..4)` must by the spec yield the single value stored at key 3, but the
iterator starts at `Err(pos) + 1` when the start key is absent and skips it,
yielding nothing; with the present start key 3 the same scan does yield it. -/
theorem c2_range_skips_first_key_when_start_absent :
    BTree.insertList 2 2 (BNode.leaf []) [(1, 10), (3, 30)]
        = .ok (BNode.leaf [(1, 10), (3, 30)]) ∧
    BTree.lookup 3 (BNode.leaf [(1, 10), (3, 30)] : BNode Nat Nat) = some 30 ∧
    BTree.range 2 4 (BNode.leaf [(1, 10), (3, 30)] : BNode Nat Nat) = [] ∧
    BTree.range 3 4 (BNode.leaf [(1, 10), (3, 30)] : BNode Nat Nat) = [30] := by
  refine ⟨?_, ?_, ?_, ?_⟩
  · simp [BTree.insertList, BTree.insert, BTree.insNode, leafInsert, insPos]
  · simp [BTree.lookup, BTree.search, leafFind]
  · simp [BTree.range, iterDescend, iterRun, popToNext, insPos, weight, entries]
  · simp [BTree.range, iterDescend, iterRun, popToNext, insPos, weight, entries]

/-- C5 (counterexample): `delete` returns `Ok` but does **not** fold a
checkpoint in — the committed tree no longer holds key 1 while the (unchanged)
checkpointed metadata still does, so the new state was not made durable. -/
theorem c5_delete_not_durable_counterexample :
    (BTree.delete 1 1 c5state 1).2 = none ∧
    BTree.lookup 1 (BTree.delete 1 1 c5state 1).1.committed = none ∧
    (BTree.delete 1 1 c5state 1).1.metadata = c5state.metadata ∧
    BTree.lookup 1 (BTree.delete 1 1 c5state 1).1.metadata = some 1 := by
  have hs : c5state
      = TreeState.mk (BNode.leaf [(1, 1)]) (BNode.leaf [(1, 1)]) (StaticSettings.mk 88 8) := by
    simp [c5state, BTree.insert_many, BTree.insertList, BTree.insert, BTree.insNode,
      leafInsert, insPos, BTree.new, BTree.checkpoint]
  have hd : BTree.delete 1 1 c5state 1
      = (TreeState.mk (BNode.leaf []) (BNode.leaf [(1, 1)]) (StaticSettings.mk 88 8), none) := by
    rw [hs]
    simp [BTree.delete, BTree.delete_async, BTree.delNode, leafDelete, isUnderfull]
  rw [hd, hs]
  refine ⟨rfl, ?_, rfl, ?_⟩
  · simp [BTree.lookup, BTree.search, leafFind]
  · simp [BTree.lookup, BTree.search, leafFind]

/-- C5 (amended): after `delete` returns `Ok` the new state is only committed
in memory; the checkpointed metadata is untouched (`delete` performs no
checkpoint — its doc comment: "this doesn't sync the file to disk").  Only
`insert_one` and `insert_many` fold a checkpoint in. -/
theorem c5_delete_commits_without_checkpoint {s s' : TreeState K V} {k : K}
    (h : BTree.delete minLeaf minInt s k = (s', none)) :
    s'.metadata = s.metadata ∧
    BTree.delete_async minLeaf minInt k s.committed = .ok s'.committed ∧
    (∀ (l : List (K × V)) (s'' : TreeState K V),
      BTree.insert_many capLeaf capInt s l = (s'', none) → s''.metadata = s''.committed) := by
  refine ⟨?_, ?_, ?_⟩
  · unfold BTree.delete at h
    cases hd : BTree.delete_async minLeaf minInt k s.committed with
    | error e => rw [hd] at h; exact absurd (congrArg Prod.snd h) (by simp)
    | ok t => rw [hd] at h; cases h; rfl
  · unfold BTree.delete at h
    cases hd : BTree.delete_async minLeaf minInt k s.committed with
    | error e => rw [hd] at h; exact absurd (congrArg Prod.snd h) (by simp)
    | ok t => rw [hd] at h; cases h; rfl
  · intro l s'' h''
    unfold BTree.insert_many at h''
    cases hl : BTree.insertList capLeaf capInt s.committed l with
    | error e => rw [hl] at h''; exact absurd (congrArg Prod.snd h'') (by simp)
    | ok t => rw [hl] at h''; cases h''; rfl

/-- Witness for C5 (amended) at the concrete state of the counterexample. -/
theorem c5_delete_commits_without_checkpoint_witness :
    (BTree.delete 1 1 c5state 1).1.metadata = c5state.metadata ∧
    BTree.delete_async 1 1 1 c5state.committed
      = .ok (BTree.delete 1 1 c5state 1).1.committed ∧
    (∀ (l : List (Nat × Nat)) (s'' : TreeState Nat Nat),
      BTree.insert_many 2 3 c5state l = (s'', none) → s''.metadata = s''.committed) :=
  c5_delete_commits_without_checkpoint 2 3 1 1 (s := c5state) (k := 1) (by
    simp [c5state, BTree.insert_many, BTree.insertList, BTree.insert, BTree.insNode,
      leafInsert, insPos, BTree.new, BTree.checkpoint, BTree.delete, BTree.delete_async,
      BTree.delNode, leafDelete, isUnderfull])

/-- C6: a split that survives past the root (empty backtrack stack) makes
`create_internal_node` build a new root holding exactly the promoted key and
exactly the two halves as children; inserting into a full single-leaf root
thus yields a depth-2 tree with two leaf children. -/
theorem c6_root_split_creates_two_child_root :
    (∀ (k : K) (v : V) (t l r : BNode K V) (sk : K),
      BTree.insNode capLeaf capInt k v t = .ok (.split l sk r) →
      BTree.insert capLeaf capInt k v t = .ok (.internal [sk] [l, r])) ∧
    (∀ (k : K) (v : V) (kvs : List (K × V)),
      1 ≤ capLeaf → kvs.length = capLeaf → k ∉ kvs.map Prod.fst →
      ∃ (sk : K) (lkvs rkvs : List (K × V)),
        BTree.insert capLeaf capInt k v (.leaf kvs)
          = .ok (.internal [sk] [.leaf lkvs, .leaf rkvs]) ∧
        Depth (.internal [sk] [.leaf lkvs, .leaf rkvs] : BNode K V) 2) := by
  constructor
  · intro k v t l r sk h
    unfold BTree.insert
    rw [h]
  · intro k v kvs hcap hlen hnot
    have hcont : (kvs.map Prod.fst).contains k = false := by simp [hnot]
    have hlen' : (kvs.insertIdx (insPos k (kvs.map Prod.fst)) (k, v)).length
        = capLeaf + 1 := by
      rw [List.length_insertIdx _ _ ?_, hlen]
      calc insPos k (kvs.map Prod.fst) ≤ (kvs.map Prod.fst).length := insPos_le_length _ _
        _ = kvs.length := by rw [List.length_map]
    have hno : ¬ (capLeaf + 1 ≤ capLeaf) := by omega
    cases hd : (kvs.insertIdx (insPos k (kvs.map Prod.fst)) (k, v)).drop
        ((capLeaf + 1 + 1) / 2) with
    | nil =>
        exfalso
        have hld := List.length_drop ((capLeaf + 1 + 1) / 2)
          (kvs.insertIdx (insPos k (kvs.map Prod.fst)) (k, v))
        rw [hd, hlen'] at hld
        simp at hld
        omega
    | cons kv rest =>
        refine ⟨kv.1,
          (kvs.insertIdx (insPos k (kvs.map Prod.fst)) (k, v)).take ((capLeaf + 1 + 1) / 2),
          kv :: rest, ?_, ?_⟩
        · simp only [BTree.insert, BTree.insNode, leafInsert, hcont, Bool.false_eq_true,
            if_false, hlen', hno, hd]
        · exact Depth.internal (by
            intro c hc
            rcases List.mem_cons.1 hc with h | h
            · rw [h]; exact Depth.leaf _
            · rcases List.mem_cons.1 h with h | h
              · rw [h]; exact Depth.leaf _
              · cases h)

/-- Witness for C6: both arms at concrete inputs — a pending root split is
absorbed into a fresh two-child root, and inserting key 3 into the full
two-entry root leaf produces the depth-2 tree with two leaf children. -/
theorem c6_root_split_creates_two_child_root_witness :
    BTree.insert 2 2 3 (30 : Nat) (.leaf [(1, 10), (2, 20)])
      = .ok (.internal [3] [.leaf [(1, 10), (2, 20)], .leaf [(3, 30)]]) ∧
    (∃ (sk : Nat) (lkvs rkvs : List (Nat × Nat)),
      BTree.insert 2 2 3 (30 : Nat) (.leaf [(1, 10), (2, 20)])
        = .ok (.internal [sk] [.leaf lkvs, .leaf rkvs]) ∧
      Depth (.internal [sk] [.leaf lkvs, .leaf rkvs] : BNode Nat Nat) 2) := by
  constructor
  · exact (c6_root_split_creates_two_child_root 2 2).1 3 30 (.leaf [(1, 10), (2, 20)])
      (.leaf [(1, 10), (2, 20)]) (.leaf [(3, 30)]) 3
      (by simp [BTree.insNode, leafInsert, insPos])
  · exact (c6_root_split_creates_two_child_root 2 2).2 3 30 [(1, 10), (2, 20)]
      (by decide) rfl (by decide)

/-- C7: if the deletion pass leaves the internal root with zero keys, its sole
remaining child (`children().get(0)`) is promoted as the new root; and when the
leaf being deleted from is itself the root (no parent frame), the underfull
root is accepted as is — the deletion is applied and no rebalance is
attempted. -/
theorem c7_root_promotion_and_underfull_root :
    (∀ (k : K) (t c : BNode K V) (cs : List (BNode K V)),
      BTree.delNode minLeaf minInt k t = .ok (.internal [] (c :: cs)) →
      BTree.delete_async minLeaf minInt k t = .ok c) ∧
    (∀ (k : K) (kvs : List (K × V)),
      BTree.delete_async minLeaf minInt k (.leaf kvs) = .ok (.leaf (leafDelete kvs k))) := by
  constructor
  · intro k t c cs h
    unfold BTree.delete_async
    rw [h]
    simp
  · intro k kvs
    simp [BTree.delete_async, BTree.delNode]

/-- Witness for C7: deleting key 2 from the two-leaf tree merges the leaves,
empties the root and promotes the surviving leaf; deleting from a root leaf
below the minimum occupancy is accepted without error. -/
theorem c7_root_promotion_and_underfull_root_witness :
    BTree.delete_async 1 1 2 (.internal [2] [.leaf [(1, 10)], .leaf [(2, 20)]] : BNode Nat Nat)
      = .ok (.leaf [(1, 10)]) ∧
    BTree.delete_async 1 1 2 (.leaf [(1, 10), (2, 20)] : BNode Nat Nat)
      = .ok (.leaf (leafDelete [(1, 10), (2, 20)] 2)) := by
  constructor
  · exact (c7_root_promotion_and_underfull_root 1 1).1 2
      (.internal [2] [.leaf [(1, 10)], .leaf [(2, 20)]]) (.leaf [(1, 10)]) []
      (by simp [BTree.delNode, BTree.delChild, leafDelete, isUnderfull, childIdx,
        upperPivot, fixChild, canLend, mergeIntoLeft])
  · exact (c7_root_promotion_and_underfull_root 1 1).2 2 [(1, 10), (2, 20)]

/-- C8 (counterexample): the invariant exactly as the specification states it
(at least `⌈capacity/2⌉` entries in every non-root node) is violated on a
reachable tree: at odd internal capacity 3, ascending inserts of 1..9 at leaf
capacity 2 leave a non-root internal node with a single key, below
`⌈3/2⌉ = 2` — an internal split cannot give both halves `⌈capacity/2⌉` keys
when the capacity is odd. -/
theorem c8_ceil_half_full_counterexample :
    ∃ t : BNode Nat Nat, Reachable 2 3 t ∧ halfFullCeil 2 3 true t = false := by
  refine ⟨BNode.internal [7]
    [BNode.internal [3, 5]
      [BNode.leaf [(1, 1), (2, 2)], BNode.leaf [(3, 3), (4, 4)], BNode.leaf [(5, 5), (6, 6)]],
     BNode.internal [9] [BNode.leaf [(7, 7), (8, 8)], BNode.leaf [(9, 9)]]], ?_, ?_⟩
  · refine reachable_insertList
      [(1, 1), (2, 2), (3, 3), (4, 4), (5, 5), (6, 6), (7, 7), (8, 8), (9, 9)]
      (BNode.leaf []) _ Reachable.new ?_
    simp [BTree.insertList, BTree.insert, BTree.insNode, BTree.insChild, leafInsert,
      internalInsert, insPos, childIdx, upperPivot]
  · simp [halfFullCeil, halfFullCeilList]

/-- C8 (amended): every tree reachable from `new` by inserts and deletes is
balanced — every node within capacity, every non-root leaf holding at least
`⌈capLeaf/2⌉` entries, every non-root internal node at least `⌊capInt/2⌋`
keys (equal to `⌈capInt/2⌉` whenever the capacity is even), the root nonempty
unless it is a leaf — and all its leaves are at the same depth; insert (split
propagation) and delete (borrow/merge rebalancing) preserve this invariant. -/
theorem c8_reachable_balanced_uniform_depth {cl ci : Nat} (hcl : 1 ≤ cl)
    (hci : 2 ≤ ci) :
    ∀ t : BNode K V, Reachable cl ci t → Bal cl ci true t ∧ ∃ h, Depth t h := by
  intro t hr
  induction hr with
  | new => exact ⟨Bal.leaf (by simp) (fun hfalse => by cases hfalse), 1, Depth.leaf _⟩
  | ins hr hins ih =>
      obtain ⟨hb, h, hd⟩ := ih
      exact insert_bal hcl hci hb hd hins
  | del hr hdel ih =>
      obtain ⟨hb, h, hd⟩ := ih
      exact delete_async_bal hcl hci hb hd hdel

/-- Witness for C8 (amended): the invariant holds at a concrete reachable
tree — insert 1 then 2 then 3 at capacities 2/2 (splitting the root leaf),
then delete 3 (merging back). -/
theorem c8_reachable_balanced_uniform_depth_witness :
    Bal 2 2 true (BNode.internal [3] [BNode.leaf [(1, 10), (2, 20)], BNode.leaf [(3, 30)]]
      : BNode Nat Nat) ∧
    ∃ h, Depth (BNode.internal [3] [BNode.leaf [(1, 10), (2, 20)], BNode.leaf [(3, 30)]]
      : BNode Nat Nat) h := by
  refine c8_reachable_balanced_uniform_depth (by norm_num) (by norm_num) _
    (Reachable.ins (k := 3) (v := 30)
      (Reachable.ins (u := BNode.leaf [(1, 10), (2, 20)]) (k := 2) (v := 20)
        (Reachable.ins (u := BNode.leaf [(1, 10)]) (k := 1) (v := 10)
          Reachable.new ?_) ?_) ?_)
  · simp [BTree.insert, BTree.insNode, leafInsert, insPos]
  · simp [BTree.insert, BTree.insNode, leafInsert, insPos]
  · simp [BTree.insert, BTree.insNode, leafInsert, insPos]

/-- C9: checkpoint, close, reopen — the reopened tree has the same root (hence
every lookup agrees) and the static settings read back equal those given at
creation. -/
theorem c9_checkpoint_close_reopen_roundtrip :
    (∀ s : TreeState K V,
      (BTree.reopen (BTree.close (BTree.checkpoint s))).committed = s.committed ∧
      (BTree.reopen (BTree.close (BTree.checkpoint s))).static_settings
        = s.static_settings ∧
      ∀ k : K, BTree.lookup k (BTree.reopen (BTree.close (BTree.checkpoint s))).committed
        = BTree.lookup (V := V) k s.committed) ∧
    (∀ page_size key_buffer_size : Nat,
      (BTree.new page_size key_buffer_size : TreeState K V).static_settings
        = ⟨page_size, key_buffer_size⟩) :=
  ⟨fun _ => ⟨rfl, rfl, fun _ => rfl⟩, fun _ _ => rfl⟩

/-- C1 (confirmed): inserting a batch of pairwise-distinct keys into the tree
created by `new` (an empty leaf root) via the `insert_many` loop succeeds, and
afterwards `lookup` of each inserted key returns the value that was inserted
with it, while `lookup` of any key never inserted returns `none`. -/
theorem c1_insert_then_lookup (cl ci pg kb : Nat) (hci : 2 ≤ ci)
    {l : List (K × V)} (hnd : (l.map Prod.fst).Nodup) :
    ∃ t, BTree.insertList cl ci (BTree.new pg kb : TreeState K V).committed l = .ok t ∧
      (∀ kv ∈ l, BTree.lookup kv.1 t = some kv.2) ∧
      (∀ k : K, k ∉ l.map Prod.fst → BTree.lookup k t = none) := by
  have hempty : (BTree.new pg kb : TreeState K V).committed = BNode.leaf [] := rfl
  rw [hempty]
  have hwf0 : WF (none : Option K) none (BNode.leaf ([] : List (K × V))) := by
    rw [WF]; constructor <;> simp
  obtain ⟨t, hok, hwf, hperm⟩ := insertList_wf cl ci hci l _ hwf0
    (by simp [treeKeys, entries]) hnd
  have hperm' : List.Perm (entries t) l := by simpa [entries] using hperm
  refine ⟨t, hok, ?_, ?_⟩
  · intro kv hkv
    exact (lookup_iff hwf).2 (hperm'.mem_iff.2 hkv)
  · intro k hk
    rw [lookup_none_iff hwf]
    intro hkt
    obtain ⟨v, hv⟩ := mem_treeKeys.1 hkt
    exact hk (List.mem_map_of_mem Prod.fst (hperm'.mem_iff.1 hv))

/-- C1 witness: at `capLeaf = capInt = 2` the batch `[(2,20), (1,10), (3,30)]`
builds a two-leaf tree on which each inserted key looks up to its value and
key 4 (never inserted) looks up to `none`. -/
theorem c1_insert_then_lookup_witness :
    ∃ t, BTree.insertList 2 2 (BTree.new 88 8 : TreeState Nat Nat).committed
        [(2, 20), (1, 10), (3, 30)] = .ok t ∧
      (∀ kv ∈ [((2 : Nat), (20 : Nat)), (1, 10), (3, 30)],
        BTree.lookup kv.1 t = some kv.2) ∧
      (∀ k : Nat, k ∉ ([((2 : Nat), (20 : Nat)), (1, 10), (3, 30)]).map Prod.fst →
        BTree.lookup k t = none) :=
  c1_insert_then_lookup 2 2 88 8 (by decide) (by decide)

/-- C3 (confirmed): inserting a key already present in a wellformed committed
tree makes `insert_async` return the `DuplicatedKey` error and leave the state
unchanged — in particular every `lookup` observation after the failed insert
equals the observation before it. -/
theorem c3_duplicate_insert_rejected {cl ci : Nat} (hci : 2 ≤ ci)
    {s : TreeState K V} {k : K} {v0 v : V}
    (hwf : WF (none : Option K) none s.committed)
    (hk : BTree.lookup k s.committed = some v0) :
    BTree.insert_async cl ci s k v = (s, some .DuplicatedKey) ∧
    ∀ k' : K, BTree.lookup k' (BTree.insert_async cl ci s k v).1.committed
      = BTree.lookup k' s.committed := by
  have hkt : k ∈ treeKeys s.committed :=
    mem_treeKeys.2 ⟨v0, (lookup_iff hwf).1 hk⟩
  have herr := (insert_wf cl ci (v := v) hci hwf).1 hkt
  have hmain : BTree.insert_async cl ci s k v = (s, some .DuplicatedKey) := by
    simp [BTree.insert_async, herr]
  exact ⟨hmain, fun k' => by rw [hmain]⟩

/-- C3 witness: the tree holding `(1, 10)`; re-inserting key 1 (with a new
value 99) is rejected with `DuplicatedKey` and the state is untouched. -/
theorem c3_duplicate_insert_rejected_witness :
    BTree.insert_async 2 2 (TreeState.mk (BNode.leaf [((1 : Nat), (10 : Nat))])
        (BNode.leaf []) (StaticSettings.mk 88 8)) 1 99
      = (TreeState.mk (BNode.leaf [(1, 10)]) (BNode.leaf []) (StaticSettings.mk 88 8),
        some .DuplicatedKey) ∧
    ∀ k' : Nat, BTree.lookup k'
        (BTree.insert_async 2 2 (TreeState.mk (BNode.leaf [((1 : Nat), (10 : Nat))])
          (BNode.leaf []) (StaticSettings.mk 88 8)) 1 99).1.committed
      = BTree.lookup k' (TreeState.mk (BNode.leaf [((1 : Nat), (10 : Nat))])
          (BNode.leaf []) (StaticSettings.mk 88 8)).committed :=
  c3_duplicate_insert_rejected (by decide)
    (by rw [WF]; constructor <;> simp [loLE, hiGT])
    (show BTree.lookup 1 (TreeState.mk (BNode.leaf [((1 : Nat), (10 : Nat))])
        (BNode.leaf []) (StaticSettings.mk 88 8)).committed = some 10 from
      by simp [BTree.lookup, BTree.search, leafFind])

/-- C4 (confirmed): deleting a key not present in the wellformed, balanced
committed tree returns without error and performs no mutation: the state is
unchanged, so the key/value pairs observable by `lookup` are identical before
and after the call. -/
theorem c4_delete_absent_noop {cl ci : Nat} {b : Bool}
    {s : TreeState K V} {k : K}
    (hwf : WF (none : Option K) none s.committed)
    (hbal : Bal cl ci b s.committed)
    (hk : BTree.lookup k s.committed = none) :
    BTree.delete ((cl + 1) / 2) (ci / 2) s k = (s, none) ∧
    ∀ k' : K, BTree.lookup k'
        (BTree.delete ((cl + 1) / 2) (ci / 2) s k).1.committed
      = BTree.lookup k' s.committed := by
  have hkt : k ∉ treeKeys s.committed := (lookup_none_iff hwf).1 hk
  have hda := delete_async_noop hwf hbal hkt
  have hmain : BTree.delete ((cl + 1) / 2) (ci / 2) s k = (s, none) := by
    simp [BTree.delete, hda]
  exact ⟨hmain, fun k' => by rw [hmain]⟩

/-- C4 witness: a two-leaf tree holding keys 1 and 2 at capacities 2/2;
deleting the absent key 5 leaves the state untouched. -/
theorem c4_delete_absent_noop_witness :
    BTree.delete ((2 + 1) / 2) (2 / 2)
        (TreeState.mk (BNode.internal [2] [BNode.leaf [((1 : Nat), (10 : Nat))],
          BNode.leaf [(2, 20)]]) (BNode.leaf []) (StaticSettings.mk 88 8)) 5
      = (TreeState.mk (BNode.internal [2] [BNode.leaf [((1 : Nat), (10 : Nat))],
          BNode.leaf [(2, 20)]]) (BNode.leaf []) (StaticSettings.mk 88 8), none) ∧
    ∀ k' : Nat, BTree.lookup k'
        (BTree.delete ((2 + 1) / 2) (2 / 2)
          (TreeState.mk (BNode.internal [2] [BNode.leaf [((1 : Nat), (10 : Nat))],
            BNode.leaf [(2, 20)]]) (BNode.leaf []) (StaticSettings.mk 88 8)) 5).1.committed
      = BTree.lookup k'
          (TreeState.mk (BNode.internal [2] [BNode.leaf [((1 : Nat), (10 : Nat))],
            BNode.leaf [(2, 20)]]) (BNode.leaf []) (StaticSettings.mk 88 8)).committed :=
  c4_delete_absent_noop (b := true)
    (by
      rw [WF]
      refine ⟨by simp, ?_⟩
      rw [WFChain]
      refine ⟨by simp [loLT], by simp [hiGT], ?_, ?_⟩
      · rw [WF]
        constructor <;> simp [loLE, hiGT]
      · rw [WFChain, WF]
        constructor <;> simp [loLE, hiGT])
    (by
      refine Bal.internal (by decide) (by decide) (by decide) (fun h => by cases h) ?_
      intro c hc
      rcases List.mem_cons.1 hc with rfl | hc2
      · exact Bal.leaf (by decide) (fun _ => by decide)
      · rcases List.mem_cons.1 hc2 with rfl | hc3
        · exact Bal.leaf (by decide) (fun _ => by decide)
        · cases hc3)
    (by simp [BTree.lookup, BTree.search, BTree.searchChild, childIdx, upperPivot, leafFind])

/-- C10 (confirmed): `insert_many` is atomic per batch — if some pair of the
batch carries a key already present in the wellformed committed tree, the call
fails, the write transaction is dropped without commit, and the state is
returned unchanged: no pair of the batch (including those inserted earlier in
the iteration) is visible to subsequent lookups. -/
theorem c10_insert_many_atomic {cl ci : Nat} (hci : 2 ≤ ci)
    {s : TreeState K V} {l : List (K × V)} {kv : K × V}
    (hwf : WF (none : Option K) none s.committed)
    (hkv : kv ∈ l) (hk : kv.1 ∈ treeKeys s.committed) :
    ∃ e, BTree.insert_many cl ci s l = (s, some e) ∧
      ∀ k' : K, BTree.lookup k' (BTree.insert_many cl ci s l).1.committed
        = BTree.lookup k' s.committed := by
  obtain ⟨e, he⟩ := insertList_fails cl ci hci l s.committed hwf ⟨kv, hkv, hk⟩
  have hmain : BTree.insert_many cl ci s l = (s, some e) := by
    simp [BTree.insert_many, he]
  exact ⟨e, hmain, fun k' => by rw [hmain]⟩

/-- C10 witness: the committed tree holds key 1; the batch `[(2,20), (1,99)]`
fails on its second pair, and the whole batch — including the pair `(2,20)`
inserted earlier in the iteration — is invisible afterwards. -/
theorem c10_insert_many_atomic_witness :
    ∃ e, BTree.insert_many 2 2 (TreeState.mk (BNode.leaf [((1 : Nat), (10 : Nat))])
        (BNode.leaf []) (StaticSettings.mk 88 8)) [(2, 20), (1, 99)]
      = (TreeState.mk (BNode.leaf [((1 : Nat), (10 : Nat))])
          (BNode.leaf []) (StaticSettings.mk 88 8), some e) ∧
      ∀ k' : Nat, BTree.lookup k'
          (BTree.insert_many 2 2 (TreeState.mk (BNode.leaf [((1 : Nat), (10 : Nat))])
            (BNode.leaf []) (StaticSettings.mk 88 8)) [(2, 20), (1, 99)]).1.committed
        = BTree.lookup k' (TreeState.mk (BNode.leaf [((1 : Nat), (10 : Nat))])
            (BNode.leaf []) (StaticSettings.mk 88 8)).committed :=
  c10_insert_many_atomic (by decide)
    (by rw [WF]; constructor <;> simp [loLE, hiGT])
    (show ((1 : Nat), (99 : Nat)) ∈ [((2 : Nat), (20 : Nat)), (1, 99)] from by decide)
    (by simp [treeKeys, entries])

end Claims

end BTreeIndex
